import Mathlib

/-
Verification of the ox-content Markdown parsing engine
(crates/ox_content_parser/src/parser.rs and crates/ox_content_ast/src/span.rs).

The source operates on UTF-8 byte offsets into an immutable source string.
We model source strings as lists of byte values (Nat, each < 256 for real
inputs).  Every cursor comparison in the source compares the current char
against an ASCII character, and in valid UTF-8 no byte of a multi-byte
character is below 0x80, so stepping the cursor byte by byte visits the same
stopping positions as the char-by-char loops of the source; loops are
therefore modelled byte-wise over the remaining suffix, which keeps every
definition structurally recursive and computable.

The two loops that are not obviously productive in the source, namely the
top-level block loop of parse and the list loop with its nested-list
recursion, are given an explicit fuel parameter; fuel exhaustion is the
distinguished result PR.fuelOut.  The inline parser and all line-consuming
loops advance by at least one byte per iteration; they receive an internally
computed fuel that is large enough by construction.

Rust string slicing panics when an index is not a character boundary.  The
only slice in the parser whose indices are not forced to character
boundaries is the escape-sequence slice content[pos..pos+1] in parse_inline;
it is modelled with an explicit boundary check whose failure is the
distinguished result PR.panicked, mirroring the Rust panic.
-/

set_option maxRecDepth 10000

namespace OxContent

/-- Byte strings: UTF-8 bytes of a Rust str. -/
abbrev Bytes := List Nat

/-- Source span, from ox_content_ast::span::Span.  The Rust field named end
is called stop here because end is a Lean keyword.  Offsets are u32 in the
source; inputs are assumed shorter than 2^32 so Nat is faithful. -/
structure Span where
  start : Nat
  stop : Nat
deriving DecidableEq, Repr

/-- Table column alignment, from the ox_content_ast AlignKind enum
(declaration not in the sources at hand; modelled from the spec, which fixes
the variants None, Left, Right, Center). -/
inductive AlignKind where
  | none
  | left
  | right
  | center
deriving DecidableEq, Repr

/-- Modelled from the spec: the AST node declarations of ox_content_ast are
not among the sources at hand (only span.rs is); the spec fixes a closed
tagged union with block variants Paragraph, Heading, ThematicBreak,
CodeBlock, BlockQuote, List, ListItem, Table, Html, Definition,
FootnoteDefinition and inline variants Text, Emphasis, Strong, InlineCode,
Link, Image, Delete, Break, FootnoteReference, plus TableRow and TableCell
used by the parser.  Field shapes follow the construction sites in
parser.rs.  The Rust variant Break is called hardBreak here because break is
a Lean keyword.  Variants never constructed by the parser carry plausible
minimal fields; nothing depends on them. -/
inductive Node where
  | paragraph (children : List Node) (span : Span)
  | heading (depth : Nat) (children : List Node) (span : Span)
  | thematicBreak (span : Span)
  | codeBlock (lang : Option Bytes) (meta : Option Bytes) (value : Bytes) (span : Span)
  | blockQuote (children : List Node) (span : Span)
  | list (ordered : Bool) (start : Option Nat) (spread : Bool)
      (children : List Node) (span : Span)
  | listItem (checked : Option Bool) (spread : Bool) (children : List Node) (span : Span)
  | table (align : List AlignKind) (children : List Node) (span : Span)
  | tableRow (children : List Node) (span : Span)
  | tableCell (children : List Node) (span : Span)
  | html (value : Bytes) (span : Span)
  | definition (identifier : Bytes) (url : Bytes) (span : Span)
  | footnoteDefinition (identifier : Bytes) (children : List Node) (span : Span)
  | text (value : Bytes) (span : Span)
  | emphasis (children : List Node) (span : Span)
  | strong (children : List Node) (span : Span)
  | inlineCode (value : Bytes) (span : Span)
  | link (url : Bytes) (title : Option Bytes) (children : List Node) (span : Span)
  | image (url : Bytes) (title : Option Bytes) (alt : Bytes) (span : Span)
  | delete (children : List Node) (span : Span)
  | hardBreak (span : Span)
  | footnoteReference (identifier : Bytes) (span : Span)
deriving Repr

/-- The parse result root, from ox_content_ast (usage in parser.rs:
children plus a span covering the whole source). -/
structure Document where
  children : List Node
  span : Span
deriving Repr

/-- ParserOptions from parser.rs. -/
structure ParserOptions where
  gfm : Bool
  footnotes : Bool
  task_lists : Bool
  tables : Bool
  strikethrough : Bool
  autolinks : Bool
  max_nesting_depth : Nat
deriving DecidableEq, Repr

/-- ParserOptions::default: derived Default, all flags false, depth 0. -/
def defaultOptions : ParserOptions :=
  { gfm := false, footnotes := false, task_lists := false, tables := false,
    strikethrough := false, autolinks := false, max_nesting_depth := 0 }

/-- ParserOptions::gfm from parser.rs. -/
def gfmOptions : ParserOptions :=
  { gfm := true, footnotes := true, task_lists := true, tables := true,
    strikethrough := true, autolinks := true, max_nesting_depth := 100 }

/-- Computation result.  ok and err model Result over ParseError, whose only
variant is NestingTooDeep with a span and max_depth payload (error.rs is not
among the sources at hand; modelled from the spec).  panicked models a Rust
panic (string slicing off a character boundary).  fuelOut is the modelling
artifact for exhausted fuel: the computation did not finish within the given
number of steps. -/
inductive PR (α : Type) where
  | ok (a : α)
  | err (span : Span) (maxDepth : Nat)
  | panicked
  | fuelOut
deriving Repr

/-- True exactly on the err result. -/
def isErrPR {α : Type} : PR α → Bool
  | PR.err _ _ => true
  | _ => false

/-- The question-mark operator of the source: continue on ok, propagate
everything else. -/
def prBind {α β : Type} : PR α → (α → PR β) → PR β
  | PR.ok a, f => f a
  | PR.err s m, _ => PR.err s m
  | PR.panicked, _ => PR.panicked
  | PR.fuelOut, _ => PR.fuelOut

/-- Byte test for the whitespace set of Parser::skip_whitespace
(space and tab only). -/
def isWsByte (b : Nat) : Bool := b == 32 || b == 9

/-- Byte test for Rust char::is_whitespace as used by str::trim and friends,
restricted to the ASCII whitespace characters (tab, LF, VT, FF, CR, space).
The Unicode whitespace code points are multi-byte and are not modelled. -/
def isUniWsByte (b : Nat) : Bool :=
  b == 9 || b == 10 || b == 11 || b == 12 || b == 13 || b == 32

/-- Byte test for char::is_ascii_digit. -/
def isDigitByte (b : Nat) : Bool := 48 ≤ b && b ≤ 57

/-- The slice source[a..b] of Rust, as bytes. -/
def sliceL (bs : Bytes) (a b : Nat) : Bytes := (bs.drop a).take (b - a)

/-- First byte at a position: the byte the char returned by Parser::peek
starts with (none at end of input). -/
def peekB (src : Bytes) (pos : Nat) : Option Nat := src.get? pos

/-- Rust str::is_char_boundary: position 0, the length, or a byte that is
not a UTF-8 continuation byte; positions beyond the length are not
boundaries (slicing there panics). -/
def isCharBoundaryB (bs : Bytes) (i : Nat) : Bool :=
  if i == 0 then true
  else
    match bs.get? i with
    | some b => !(decide (128 ≤ b) && decide (b < 192))
    | none => i == bs.length

/-- Length of the run of a given byte starting at pos (the run-counting
loops of parse_heading, parse_fenced_code and the emphasis branch). -/
def runLen (bs : Bytes) (pos marker : Nat) : Nat :=
  ((bs.drop pos).takeWhile (· == marker)).length

/-- Loop body of Parser::skip_whitespace over the remaining suffix. -/
def skip_whitespace_aux : Bytes → Nat → Nat
  | [], pos => pos
  | b :: rest, pos => if isWsByte b then skip_whitespace_aux rest (pos + 1) else pos

/-- Parser::skip_whitespace: advance over spaces and tabs. -/
def skip_whitespace (src : Bytes) (pos : Nat) : Nat :=
  skip_whitespace_aux (src.drop pos) pos

/-- Loop of Parser::skip_blank_lines.  Each continuing iteration consumes at
least the newline, so length + 1 fuel always suffices. -/
def skip_blank_lines_aux (src : Bytes) : Nat → Nat → Nat
  | 0, pos => pos
  | fuel + 1, pos =>
    if src.length ≤ pos then pos
    else
      let p := skip_whitespace src pos
      if peekB src p == some 10 then skip_blank_lines_aux src fuel (p + 1) else pos

/-- Parser::skip_blank_lines. -/
def skip_blank_lines (src : Bytes) (pos : Nat) : Nat :=
  skip_blank_lines_aux src (src.length + 1) pos

/-- Loop of Parser::calc_indentation: spaces count 1, tabs count 4. -/
def calc_indentation_aux : Bytes → Nat → Nat
  | [], acc => acc
  | b :: rest, acc =>
    if b == 32 then calc_indentation_aux rest (acc + 1)
    else if b == 9 then calc_indentation_aux rest (acc + 4)
    else acc

/-- Parser::calc_indentation. -/
def calc_indentation (src : Bytes) (start : Nat) : Nat :=
  calc_indentation_aux (src.drop start) 0

/-- Cursor after the consume-a-line loops (advance through the first
newline, or to end of input). -/
def consume_line_aux : Bytes → Nat → Nat
  | [], pos => pos
  | b :: rest, pos => if b == 10 then pos + 1 else consume_line_aux rest (pos + 1)

/-- Position after consuming one line including its newline. -/
def consume_line_pos (src : Bytes) (pos : Nat) : Nat :=
  consume_line_aux (src.drop pos) pos

/-- Cursor of the read-to-end-of-line loops that stop AT the newline without
consuming it (parse_heading, the info string of parse_fenced_code). -/
def scan_to_nl_aux : Bytes → Nat → Nat
  | [], pos => pos
  | b :: rest, pos => if b == 10 then pos else scan_to_nl_aux rest (pos + 1)

/-- Position of the next newline (or end of input). -/
def scan_to_nl (src : Bytes) (pos : Nat) : Nat :=
  scan_to_nl_aux (src.drop pos) pos

/-- str::trim_end_matches applied to one byte value: drop every trailing
occurrence. -/
def trimEndMatchesB (b : Nat) (bs : Bytes) : Bytes :=
  (bs.reverse.dropWhile (· == b)).reverse

/-- Parser::consume_line: the consumed line with its trailing newlines
stripped, and the new position. -/
def consume_line (src : Bytes) (pos : Nat) : Bytes × Nat :=
  let p := consume_line_pos src pos
  (trimEndMatchesB 10 (sliceL src pos p), p)

/-- str::trim_start (ASCII whitespace, see isUniWsByte). -/
def trimStartB (bs : Bytes) : Bytes := bs.dropWhile isUniWsByte

/-- str::trim_end (ASCII whitespace, see isUniWsByte). -/
def trimEndB (bs : Bytes) : Bytes := (bs.reverse.dropWhile isUniWsByte).reverse

/-- str::trim (ASCII whitespace, see isUniWsByte). -/
def trimB (bs : Bytes) : Bytes := trimEndB (trimStartB bs)

/-- Strip one trailing carriage return, as str::lines does on lines
terminated by a newline. -/
def stripOneCr (bs : Bytes) : Bytes :=
  if bs.getLast? == some 13 then bs.dropLast else bs

/-- remaining.lines().next().unwrap_or the empty string: the bytes up to the
first newline; a trailing carriage return is stripped only when a newline
terminator follows. -/
def firstLineB (bs : Bytes) : Bytes :=
  let l := bs.takeWhile (· != 10)
  if l.length < bs.length then stripOneCr l else l

/-- Worker for str::lines with fuel (each step consumes the line and its
newline, so length + 1 suffices). -/
def lines_aux : Nat → Bytes → List Bytes
  | 0, _ => []
  | fuel + 1, bs =>
    if bs.isEmpty then []
    else
      let l := bs.takeWhile (· != 10)
      match bs.drop l.length with
      | 10 :: rest => stripOneCr l :: lines_aux fuel rest
      | _ => [l]

/-- str::lines of the remaining input: split at newlines, no trailing empty
line for a trailing newline, carriage returns before newlines stripped. -/
def linesOf (bs : Bytes) : List Bytes := lines_aux (bs.length + 1) bs

/-- Worker for str::split on one byte. -/
def splitOnByte_aux (b : Nat) : Bytes → Bytes → List Bytes
  | [], cur => [cur.reverse]
  | x :: rest, cur =>
    if x == b then cur.reverse :: splitOnByte_aux b rest []
    else splitOnByte_aux b rest (x :: cur)

/-- str::split on one byte value (an empty input yields one empty piece,
like the Rust iterator). -/
def splitOnByte (b : Nat) (bs : Bytes) : List Bytes := splitOnByte_aux b bs []

/-- Digit bytes to the number they denote. -/
def digitsToNat (ds : Bytes) : Nat := ds.foldl (fun a b => a * 10 + (b - 48)) 0

/-- Parser::try_parse_list. -/
def try_parse_list (src : Bytes) (pos : Nat) : Bool :=
  let line := firstLineB (src.drop pos)
  let trimmed := trimStartB line
  if [45, 32].isPrefixOf trimmed || [42, 32].isPrefixOf trimmed
      || [43, 32].isPrefixOf trimmed then
    true
  else
    let ds := trimmed.takeWhile isDigitByte
    if ds.isEmpty then false
    else
      match trimmed.drop ds.length with
      | c :: rest => (c == 46 || c == 41) && (rest.head? == some 32)
      | [] => false

/-- Parser::try_parse_heading: one to six hash characters followed by
space, tab, newline or end of input. -/
def try_parse_heading (src : Bytes) (pos : Nat) : Bool :=
  let hc := runLen src pos 35
  if 6 < hc then false
  else if hc == 0 then false
  else
    match (src.drop (pos + hc)).head? with
    | some b => b == 32 || b == 9 || b == 10
    | none => true

/-- Parser::try_parse_thematic_break. -/
def try_parse_thematic_break (src : Bytes) (pos : Nat) : Bool :=
  let t := trimB (firstLineB (src.drop pos))
  if t.length < 3 then false
  else
    match t with
    | [] => false
    | f :: _ =>
      (f == 45 || f == 42 || f == 95)
        && t.all (fun c => c == f || c == 32 || c == 9)
        && decide (3 ≤ (t.filter (· == f)).length)

/-- Parser::try_parse_fenced_code: remaining starts with three backticks or
three tildes. -/
def try_parse_fenced_code (src : Bytes) (pos : Nat) : Bool :=
  [96, 96, 96].isPrefixOf (src.drop pos) || [126, 126, 126].isPrefixOf (src.drop pos)

/-- Parser::try_parse_table, on the remaining input. -/
def try_parse_table_core (remaining : Bytes) : Bool :=
  let ls := (linesOf remaining).take 2
  if ls.length < 2 then false
  else
    let first_line := trimB (ls.headD [])
    let second_line := trimB (ls.getD 1 [])
    if !([124].isPrefixOf first_line) && !(first_line.any (· == 124)) then false
    else if !(second_line.any (· == 124)) || !(second_line.any (· == 45)) then false
    else
      ((splitOnByte 124 second_line).filter (fun s => !s.isEmpty)).all fun cell =>
        let t := trimB cell
        t.isEmpty || t.all (fun c => c == 45 || c == 58)

/-- Parser::try_parse_table. -/
def try_parse_table (src : Bytes) (pos : Nat) : Bool :=
  try_parse_table_core (src.drop pos)

/-- Byte test for the special-character set of the inline scanner
(asterisk, underscore, backtick, bracket, bang, tilde, backslash). -/
def isSpecialByte (b : Nat) : Bool :=
  b == 42 || b == 95 || b == 96 || b == 91 || b == 33 || b == 126 || b == 92

/-- The ordinary-text scan of parse_inline over the remaining suffix. -/
def scan_text_aux : Bytes → Nat → Nat
  | [], pos => pos
  | b :: rest, pos => if isSpecialByte b then pos else scan_text_aux rest (pos + 1)

/-- Position of the next special byte at or after pos (or end of content). -/
def scan_text (content : Bytes) (pos : Nat) : Nat :=
  scan_text_aux (content.drop pos) pos

/-- The closing-delimiter scan of the emphasis branch: from i, find the next
run of the marker with run length at least count.  Returns the found flag
and the position (the run start when found, the loop exit position
otherwise).  Each iteration advances i, so length + 1 fuel suffices. -/
def emph_scan (content : Bytes) (marker count : Nat) : Nat → Nat → Bool × Nat
  | 0, i => (false, i)
  | fuel + 1, i =>
    if content.length ≤ i then (false, i)
    else if (content.get? i).getD 0 == marker then
      let ec := runLen content i marker
      if count ≤ ec then (true, i)
      else emph_scan content marker count fuel (i + ec)
    else emph_scan content marker count fuel (i + 1)

/-- The scan to the next backtick of the inline-code branch. -/
def code_scan_aux : Bytes → Nat → Nat
  | [], pos => pos
  | b :: rest, pos => if b == 96 then pos else code_scan_aux rest (pos + 1)

/-- Position of the next backtick at or after pos (or end of content). -/
def code_scan (content : Bytes) (pos : Nat) : Nat :=
  code_scan_aux (content.drop pos) pos

/-- The balanced-bracket scan of the link branch: stops on the bracket that
brings the depth to zero (returning its position) or at end of content. -/
def bracket_scan_aux : Bytes → Nat → Nat → Nat
  | [], pos, _ => pos
  | b :: rest, pos, depth =>
    let depth2 := if b == 91 then depth + 1 else if b == 93 then depth - 1 else depth
    if depth2 == 0 then pos else bracket_scan_aux rest (pos + 1) depth2

/-- Balanced-bracket scan from pos with the given open depth. -/
def bracket_scan (content : Bytes) (pos depth : Nat) : Nat :=
  bracket_scan_aux (content.drop pos) pos depth

/-- The balanced-parenthesis scan of the link URL. -/
def paren_scan_aux : Bytes → Nat → Nat → Nat
  | [], pos, _ => pos
  | b :: rest, pos, depth =>
    let depth2 := if b == 40 then depth + 1 else if b == 41 then depth - 1 else depth
    if depth2 == 0 then pos else paren_scan_aux rest (pos + 1) depth2

/-- Balanced-parenthesis scan from pos with the given open depth. -/
def paren_scan (content : Bytes) (pos depth : Nat) : Nat :=
  paren_scan_aux (content.drop pos) pos depth

/-- The catch-all one-character Text node of parse_inline. -/
def one_char_text (content : Bytes) (offset pos : Nat) : Node :=
  Node.text (sliceL content pos (pos + 1)) ⟨offset + pos, offset + pos + 1⟩

/-- The main loop of Parser::parse_inline.  Fuel is consumed once per loop
iteration and passed down to the recursive descents on strictly shorter
content; parse_inline supplies a quadratic amount, which is enough because
every iteration advances the cursor by at least one byte. -/
def parse_inline_go : Nat → Bytes → Nat → Nat → List Node → PR (List Node)
  | 0, _, _, _, _ => PR.fuelOut
  | fuel + 1, content, offset, pos, acc =>
    if content.length ≤ pos then PR.ok acc
    else
      let start := pos
      let pos := scan_text content pos
      let acc :=
        if start < pos then
          acc ++ [Node.text (sliceL content start pos) ⟨offset + start, offset + pos⟩]
        else acc
      if content.length ≤ pos then PR.ok acc
      else
        let ch := (content.get? pos).getD 0
        if ch == 92 then
          if pos + 1 < content.length then
            let p := pos + 1
            if isCharBoundaryB content p && isCharBoundaryB content (p + 1) then
              parse_inline_go fuel content offset (p + 1)
                (acc ++ [Node.text (sliceL content p (p + 1))
                  ⟨offset + p - 1, offset + p + 1⟩])
            else PR.panicked
          else
            parse_inline_go fuel content offset (pos + 1)
              (acc ++ [one_char_text content offset pos])
        else if ch == 42 || ch == 95 then
          let count := runLen content pos ch
          let inner_start := pos + count
          match emph_scan content ch count (content.length + 1) inner_start with
          | (true, inner_end) =>
            prBind (parse_inline_go fuel (sliceL content inner_start inner_end)
                (offset + inner_start) 0 []) fun inner =>
              let span : Span := ⟨offset + pos, offset + inner_end + count⟩
              let nd := if 2 ≤ count then Node.strong inner span
                        else Node.emphasis inner span
              parse_inline_go fuel content offset (inner_end + count) (acc ++ [nd])
          | (false, _) =>
            parse_inline_go fuel content offset (pos + count)
              (acc ++ [Node.text (sliceL content pos (pos + count))
                ⟨offset + pos, offset + pos + count⟩])
        else if ch == 96 then
          let code_start := pos + 1
          let p := code_scan content code_start
          if p < content.length then
            parse_inline_go fuel content offset (p + 1)
              (acc ++ [Node.inlineCode (sliceL content code_start p)
                ⟨offset + code_start - 1, offset + p + 1⟩])
          else
            parse_inline_go fuel content offset p
              (acc ++ [Node.text (content.drop (code_start - 1))
                ⟨offset + code_start - 1, offset + content.length⟩])
        else if ch == 91 then
          let link_start := pos
          let text_start := pos + 1
          let p := bracket_scan content text_start 1
          if p < content.length ∧ (content.get? p).getD 0 == 93
              ∧ p + 1 < content.length ∧ (content.get? (p + 1)).getD 0 == 40 then
            let url_start := p + 2
            let p2 := paren_scan content url_start 1
            if p2 < content.length ∧ (content.get? p2).getD 0 == 41 then
              prBind (parse_inline_go fuel (sliceL content text_start p)
                  (offset + text_start) 0 []) fun ltext =>
                parse_inline_go fuel content offset (p2 + 1)
                  (acc ++ [Node.link (sliceL content url_start p2) none ltext
                    ⟨offset + link_start, offset + p2 + 1⟩])
            else
              parse_inline_go fuel content offset p2
                (acc ++ [Node.text (sliceL content link_start p2)
                  ⟨offset + link_start, offset + p2⟩])
          else
            parse_inline_go fuel content offset (link_start + 1)
              (acc ++ [Node.text [91] ⟨offset + link_start, offset + link_start + 1⟩])
        else
          parse_inline_go fuel content offset (pos + 1)
            (acc ++ [one_char_text content offset pos])

/-- Parser::parse_inline on a content slice with its absolute offset. -/
def parse_inline (content : Bytes) (offset : Nat) : PR (List Node) :=
  parse_inline_go ((content.length + 2) * (content.length + 2)) content offset 0 []

/-- Parser::parse_heading (start is the block start, equal to the current
position). -/
def parse_heading (src : Bytes) (start : Nat) : PR (Option Node × Nat) :=
  let depth := runLen src start 35
  let pos := skip_whitespace src (start + depth)
  let content_start := pos
  let content_end := scan_to_nl src pos
  let content := trimEndB (sliceL src content_start content_end)
  let content := trimEndB (trimEndMatchesB 35 content)
  let pos2 := if peekB src content_end == some 10 then content_end + 1 else content_end
  prBind (if content.isEmpty then PR.ok [] else parse_inline content content_start)
    fun children =>
      PR.ok (some (Node.heading depth children ⟨start, pos2⟩), pos2)

/-- Parser::parse_thematic_break. -/
def parse_thematic_break (src : Bytes) (start : Nat) : PR (Option Node × Nat) :=
  let pos := consume_line_pos src start
  PR.ok (some (Node.thematicBreak ⟨start, pos⟩), pos)

/-- The content loop of Parser::parse_fenced_code.  State: position and
content_end.  Returns the final content_end and position.  Each continuing
iteration consumes at least one byte, so length + 1 fuel suffices. -/
def fenced_body_aux (src : Bytes) (fence_char fence_len : Nat) :
    Nat → Nat → Nat → Nat × Nat
  | 0, pos, ce => (ce, pos)
  | fuel + 1, pos, ce =>
    if src.length ≤ pos then (ce, pos)
    else
      let line_start := pos
      let k := runLen src pos fence_char
      if fence_len ≤ k then (line_start, consume_line_pos src (pos + k))
      else
        let p2 := consume_line_pos src line_start
        fenced_body_aux src fence_char fence_len fuel p2 p2

/-- Parser::parse_fenced_code. -/
def parse_fenced_code (src : Bytes) (start : Nat) : PR (Option Node × Nat) :=
  let fence_char := (peekB src start).getD 0
  let fence_len := runLen src start fence_char
  let pos := skip_whitespace src (start + fence_len)
  let info_start := pos
  let pos := scan_to_nl src pos
  let info := trimB (sliceL src info_start pos)
  let lm : Option Bytes × Option Bytes :=
    if info.isEmpty then (none, none)
    else
      match info.findIdx? (· == 32) with
      | some i => (some (info.take i), some (info.drop (i + 1)))
      | none => (some info, none)
  let pos := if peekB src pos == some 10 then pos + 1 else pos
  let content_start := pos
  let (content_end, pos2) :=
    fenced_body_aux src fence_char fence_len (src.length + 1) pos content_start
  PR.ok (some (Node.codeBlock lm.1 lm.2 (sliceL src content_start content_end)
    ⟨start, pos2⟩), pos2)

/-- Parser::parse_table_row_cells. -/
def parse_table_row_cells (line : Bytes) : List Bytes :=
  let t := trimB line
  let t := match t with | 124 :: rest => rest | other => other
  let t := if t.getLast? == some 124 then t.dropLast else t
  (splitOnByte 124 t).map trimB

/-- The body-row loop of Parser::parse_table: collect the cell lists of
subsequent lines containing a pipe, stopping at a blank line, end of input
or a line without a pipe.  Each continuing iteration consumes at least one
byte, so length + 1 fuel suffices. -/
def table_body_aux (src : Bytes) : Nat → Nat → List (List Bytes) → List (List Bytes) × Nat
  | 0, pos, rows => (rows, pos)
  | fuel + 1, pos, rows =>
    if src.length ≤ pos then (rows, pos)
    else
      let line_start := pos
      let p := skip_whitespace src pos
      if peekB src p == some 10 || decide (src.length ≤ p) then (rows, line_start)
      else
        let line := firstLineB (src.drop p)
        if !(line.any (· == 124)) then (rows, line_start)
        else
          let (row_line, p2) := consume_line src line_start
          table_body_aux src fuel p2 (rows ++ [parse_table_row_cells row_line])

/-- Build the TableCell nodes of one row (the inner loop of the AST assembly
in parse_table). -/
def build_cells : List Bytes → PR (List Node)
  | [] => PR.ok []
  | c :: rest =>
    prBind (parse_inline c 0) fun ch =>
      prBind (build_cells rest) fun cs =>
        PR.ok (Node.tableCell ch ⟨0, 0⟩ :: cs)

/-- Build the TableRow nodes (the outer loop of the AST assembly in
parse_table). -/
def build_rows : List (List Bytes) → PR (List Node)
  | [] => PR.ok []
  | r :: rest =>
    prBind (build_cells r) fun cells =>
      prBind (build_rows rest) fun rs =>
        PR.ok (Node.tableRow cells ⟨0, 0⟩ :: rs)

/-- Parser::parse_table. -/
def parse_table (src : Bytes) (start : Nat) : PR (Option Node × Nat) :=
  let (header_line, p1) := consume_line src start
  let header_cells := parse_table_row_cells header_line
  let (delimiter_line, p2) := consume_line src p1
  let align :=
    ((splitOnByte 124 delimiter_line).filter (fun s => !(trimB s).isEmpty)).map fun cell =>
      let c := trimB cell
      let sc := c.head? == some 58
      let ec := c.getLast? == some 58
      if sc && ec then AlignKind.center
      else if sc then AlignKind.left
      else if ec then AlignKind.right
      else AlignKind.none
  let (rows, p3) := table_body_aux src (src.length + 1) p2 [header_cells]
  prBind (build_rows rows) fun children =>
    PR.ok (some (Node.table align children ⟨start, p3⟩), p3)

/-- The marker check of the list-item branch in Parser::parse_list: given
the trimmed line and the orderedness of the list, whether it is an item and,
when it is, its remaining content and checkbox state. -/
def list_item_content (opts : ParserOptions) (trimmed : Bytes) (ordered : Bool) :
    Bool × Bytes × Option Bool :=
  if [45, 32].isPrefixOf trimmed || [42, 32].isPrefixOf trimmed
      || [43, 32].isPrefixOf trimmed then
    let content := trimmed.drop 2
    if opts.task_lists && decide (3 ≤ content.length) then
      if ([91, 120, 93].isPrefixOf content || [91, 88, 93].isPrefixOf content)
          && (content.length == 3 || [91, 120, 93, 32].isPrefixOf content
              || [91, 88, 93, 32].isPrefixOf content) then
        (true, if 3 < content.length then content.drop 4 else [], some true)
      else if [91, 32, 93].isPrefixOf content
          && (content.length == 3 || [91, 32, 93, 32].isPrefixOf content) then
        (true, if 3 < content.length then content.drop 4 else [], some false)
      else (true, content, none)
    else (true, content, none)
  else if ordered then
    let ds := trimmed.takeWhile isDigitByte
    if ds.isEmpty then (false, [], none)
    else
      match trimmed.drop ds.length with
      | c :: rest =>
        if (c == 46 || c == 41) && (rest.head? == some 32) then (true, rest.drop 1, none)
        else (false, [], none)
      | [] => (false, [], none)
  else (false, [], none)

/-- children.last_mut() of Parser::parse_list: push the nested list onto the
children of the last item, if any. -/
def attach_to_last : List Node → Node → List Node
  | [], _ => []
  | [item], nested =>
    [match item with
     | Node.listItem checked spread ch sp => Node.listItem checked spread (ch ++ [nested]) sp
     | other => other]
  | x :: xs, nested => x :: attach_to_last xs nested

/-- The start-ordinal of an ordered list in Parser::parse_list:
digits collected from the trimmed line, parsed as u32 (overflow gives
none, as parse::<u32>().ok() does). -/
def list_start_of (src : Bytes) (p : Nat) (ordered : Bool) : Option Nat :=
  if ordered then
    let ds := (src.drop p).takeWhile isDigitByte
    if digitsToNat ds < 4294967296 then some (digitsToNat ds) else none
  else none

/-- The item loop of Parser::parse_list.  The nested-list descent of the
source calls parse_list recursively at the same position; its header
computation (baseline indentation, orderedness, start ordinal) is inlined
here at the descent site so that the whole recursion is structural on one
fuel parameter.  Fuel is consumed once per iteration and at each descent. -/
def list_items_loop : Nat → ParserOptions → Bytes → Nat → Bool → Nat → List Node →
    PR (List Node × Nat)
  | 0, _, _, _, _, _, _ => PR.fuelOut
  | fuel + 1, opts, src, baseline, ordered, pos, acc =>
    if src.length ≤ pos then PR.ok (acc, pos)
    else
      let line_start := pos
      let p := skip_whitespace src pos
      if peekB src p == some 10 || decide (src.length ≤ p) then PR.ok (acc, line_start)
      else
        let ci := calc_indentation src line_start
        if ci < baseline then PR.ok (acc, line_start)
        else if baseline < ci then
          if try_parse_list src line_start then
            let baseline2 := calc_indentation src line_start
            let p2 := skip_whitespace src line_start
            let ordered2 := isDigitByte ((src.drop p2).headD 0)
            let lstart2 := list_start_of src p2 ordered2
            prBind (list_items_loop fuel opts src baseline2 ordered2 line_start [])
              fun ip =>
                let nested := Node.list ordered2 lstart2 false ip.1 ⟨line_start, ip.2⟩
                list_items_loop fuel opts src baseline ordered ip.2
                  (attach_to_last acc nested)
          else
            list_items_loop fuel opts src baseline ordered (consume_line_pos src line_start) acc
        else
          let line := firstLineB (src.drop line_start)
          let trimmed := trimStartB line
          match list_item_content opts trimmed ordered with
          | (false, _, _) => PR.ok (acc, pos)
          | (true, content, checked) =>
            let pos2 := consume_line_pos src line_start
            prBind (parse_inline content 0) fun inl =>
              let para := Node.paragraph inl ⟨0, 0⟩
              let item := Node.listItem checked false [para] ⟨0, 0⟩
              list_items_loop fuel opts src baseline ordered pos2 (acc ++ [item])

/-- Parser::parse_list.  Iterations and descents together consume fuel;
every iteration consumes at least one byte or terminates a frame, so
three times the length plus three always suffices. -/
def parse_list (opts : ParserOptions) (src : Bytes) (start : Nat) : PR (Option Node × Nat) :=
  let baseline := calc_indentation src start
  let p := skip_whitespace src start
  let ordered := isDigitByte ((src.drop p).headD 0)
  let lstart := list_start_of src p ordered
  prBind (list_items_loop (3 * src.length + 3) opts src baseline ordered start [])
    fun ip =>
      PR.ok (some (Node.list ordered lstart false ip.1 ⟨start, ip.2⟩), ip.2)

/-- The line loop of Parser::parse_paragraph.  State: position and
content_end.  Returns the final content_end and position. -/
def paragraph_loop (opts : ParserOptions) (src : Bytes) : Nat → Nat → Nat → Nat × Nat
  | 0, pos, ce => (ce, pos)
  | fuel + 1, pos, ce =>
    if src.length ≤ pos then (ce, pos)
    else
      let line_start := pos
      let p := skip_whitespace src pos
      if peekB src p == some 10 || decide (src.length ≤ p) then (ce, line_start)
      else if try_parse_heading src line_start || try_parse_thematic_break src line_start
          || try_parse_fenced_code src line_start
          || (opts.tables && try_parse_table src line_start)
          || try_parse_list src line_start then
        (ce, line_start)
      else
        let p2 := consume_line_pos src line_start
        paragraph_loop opts src fuel p2 p2

/-- Parser::parse_paragraph. -/
def parse_paragraph (opts : ParserOptions) (src : Bytes) (start : Nat) :
    PR (Option Node × Nat) :=
  let (content_end, pos) := paragraph_loop opts src (src.length + 1) start start
  let content := trimB (sliceL src start content_end)
  if content.isEmpty then PR.ok (none, pos)
  else
    prBind (parse_inline content start) fun children =>
      PR.ok (some (Node.paragraph children ⟨start, content_end⟩), pos)

/-- Parser::parse_block.  The nesting argument models the nesting_depth
field of the parser; no code path of the source ever assigns it after
construction, so it is passed along unchanged. -/
def parse_block (opts : ParserOptions) (src : Bytes) (nesting pos0 : Nat) :
    PR (Option Node × Nat) :=
  let pos := skip_blank_lines src pos0
  if src.length ≤ pos then PR.ok (none, pos)
  else if opts.max_nesting_depth < nesting then
    PR.err ⟨pos, pos⟩ opts.max_nesting_depth
  else if try_parse_heading src pos then parse_heading src pos
  else if try_parse_thematic_break src pos then parse_thematic_break src pos
  else if try_parse_fenced_code src pos then parse_fenced_code src pos
  else if opts.tables && try_parse_table src pos then parse_table src pos
  else if try_parse_list src pos then parse_list opts src pos
  else parse_paragraph opts src pos

/-- The while loop of Parser::parse.  This loop can genuinely fail to make
progress (parse_block can return no node without advancing), so its fuel is
the external fuel of the model. -/
def parse_loop (opts : ParserOptions) (src : Bytes) : Nat → Nat → Nat → List Node →
    PR Document
  | 0, _, _, _ => PR.fuelOut
  | fuel + 1, nesting, pos, acc =>
    if src.length ≤ pos then PR.ok ⟨acc, ⟨0, src.length⟩⟩
    else
      prBind (parse_block opts src nesting pos) fun np =>
        match np with
        | (some n, pos2) => parse_loop opts src fuel nesting pos2 (acc ++ [n])
        | (none, pos2) => parse_loop opts src fuel nesting pos2 acc

/-- Parser::parse with the given fuel for the block loop.  The parser is
constructed with position 0 and nesting_depth 0. -/
def parse (opts : ParserOptions) (src : Bytes) (fuel : Nat) : PR Document :=
  parse_loop opts src fuel 0 0 []

/-- The span carried by a node (every variant carries one). -/
def nodeSpan : Node → Span
  | Node.paragraph _ sp => sp
  | Node.heading _ _ sp => sp
  | Node.thematicBreak sp => sp
  | Node.codeBlock _ _ _ sp => sp
  | Node.blockQuote _ sp => sp
  | Node.list _ _ _ _ sp => sp
  | Node.listItem _ _ _ sp => sp
  | Node.table _ _ sp => sp
  | Node.tableRow _ sp => sp
  | Node.tableCell _ sp => sp
  | Node.html _ sp => sp
  | Node.definition _ _ sp => sp
  | Node.footnoteDefinition _ _ sp => sp
  | Node.text _ sp => sp
  | Node.emphasis _ sp => sp
  | Node.strong _ sp => sp
  | Node.inlineCode _ sp => sp
  | Node.link _ _ _ sp => sp
  | Node.image _ _ _ sp => sp
  | Node.delete _ sp => sp
  | Node.hardBreak sp => sp
  | Node.footnoteReference _ sp => sp

/-- The child nodes of a node (empty for leaf variants). -/
def nodeChildren : Node → List Node
  | Node.paragraph ch _ => ch
  | Node.heading _ ch _ => ch
  | Node.thematicBreak _ => []
  | Node.codeBlock _ _ _ _ => []
  | Node.blockQuote ch _ => ch
  | Node.list _ _ _ ch _ => ch
  | Node.listItem _ _ ch _ => ch
  | Node.table _ ch _ => ch
  | Node.tableRow ch _ => ch
  | Node.tableCell ch _ => ch
  | Node.html _ _ => []
  | Node.definition _ _ _ => []
  | Node.footnoteDefinition _ ch _ => ch
  | Node.text _ _ => []
  | Node.emphasis ch _ => ch
  | Node.strong ch _ => ch
  | Node.inlineCode _ _ => []
  | Node.link _ _ ch _ => ch
  | Node.image _ _ _ _ => []
  | Node.delete ch _ => ch
  | Node.hardBreak _ => []
  | Node.footnoteReference _ _ => []

/-- The variants the parser can construct: Paragraph, Heading,
ThematicBreak, CodeBlock, List, ListItem, Table, TableRow, TableCell, Text,
Emphasis, Strong, InlineCode, Link. -/
def allowedKind : Node → Bool
  | Node.paragraph _ _ => true
  | Node.heading _ _ _ => true
  | Node.thematicBreak _ => true
  | Node.codeBlock _ _ _ _ => true
  | Node.list _ _ _ _ _ => true
  | Node.listItem _ _ _ _ => true
  | Node.table _ _ _ => true
  | Node.tableRow _ _ => true
  | Node.tableCell _ _ => true
  | Node.text _ _ => true
  | Node.emphasis _ _ => true
  | Node.strong _ _ => true
  | Node.inlineCode _ _ => true
  | Node.link _ _ _ _ => true
  | _ => false

/-- Every span in the tree rooted at a node is well formed for a source of
length L: start at most stop, stop at most L. -/
inductive SpanOkNode (L : Nat) : Node → Prop where
  | mk : ∀ n, (nodeSpan n).start ≤ (nodeSpan n).stop → (nodeSpan n).stop ≤ L →
      (∀ c ∈ nodeChildren n, SpanOkNode L c) → SpanOkNode L n

/-- Every node in the tree rooted at a node is one of the variants the
parser constructs. -/
inductive ProducedNode : Node → Prop where
  | mk : ∀ n, allowedKind n = true → (∀ c ∈ nodeChildren n, ProducedNode c) → ProducedNode n

/-- Conjunction of the two tree invariants, proved in one traversal. -/
def GoodNode (L : Nat) (n : Node) : Prop := SpanOkNode L n ∧ ProducedNode n

/-- Whether the first block of a parse result is a Paragraph. -/
def firstIsParagraph : PR Document → Bool
  | PR.ok d =>
    match d.children.head? with
    | some (Node.paragraph _ _) => true
    | _ => false
  | _ => false

/-- Whether the first block of a parse result is a Table. -/
def firstIsTable : PR Document → Bool
  | PR.ok d =>
    match d.children.head? with
    | some (Node.table _ _ _) => true
    | _ => false
  | _ => false

/-- Stated from the spec wording of claim C6: one delimiter cell of a table
delimiter row must match the regular expression that is anchored whitespace,
an optional colon, one or more dashes, an optional colon, whitespace. -/
def spec_delim_cell (cell : Bytes) : Bool :=
  let t := cell.dropWhile isUniWsByte
  let t := (t.reverse.dropWhile isUniWsByte).reverse
  let t := match t with | 58 :: r => r | other => other
  let t := if t.getLast? == some 58 then t.dropLast else t
  !t.isEmpty && t.all (· == 45)

/-- Stated from the spec wording of claim C6: a delimiter row is a line
every pipe-separated cell of which matches spec_delim_cell. -/
def spec_delim_row (line : Bytes) : Bool :=
  (splitOnByte 124 line).all spec_delim_cell

/-- The delimiter-row condition the code actually implements, stated in the
words of the amended claim C6: the line contains a pipe and a dash, and
every nonempty pipe-separated piece of it either trims to nothing or
consists solely of dashes and colons after trimming. -/
def amended_delimiter_row (second_line : Bytes) : Bool :=
  second_line.any (· == 124) && second_line.any (· == 45) &&
    ((splitOnByte 124 second_line).filter (fun s => !s.isEmpty)).all fun cell =>
      let t := trimB cell
      t.isEmpty || t.all (fun c => c == 45 || c == 58)

/-- The amended table recognizer of claim C6, stated declaratively: at least
two lines; the trimmed first line contains a pipe; the trimmed second line
satisfies amended_delimiter_row. -/
def amended_table_check (remaining : Bytes) : Bool :=
  match (linesOf remaining).take 2 with
  | [l1, l2] => (trimB l1).any (· == 124) && amended_delimiter_row (trimB l2)
  | _ => false

/-- Concrete document produced by parsing the one-byte source "a". -/
def c8doc : Document :=
  ⟨[Node.paragraph [Node.text [97] ⟨0, 1⟩] ⟨0, 1⟩], ⟨0, 1⟩⟩

/-- Concrete document produced by parsing the one-byte source "b". -/
def c10doc : Document :=
  ⟨[Node.paragraph [Node.text [98] ⟨0, 1⟩] ⟨0, 1⟩], ⟨0, 1⟩⟩

/-- On the input consisting of one space, parse_block skips nothing, matches
no block starter, and parse_paragraph trims the content to nothing, so the
block returns no node with the position still at 0.  The max_nesting_depth
comparison 0 over any bound reduces definitionally to false, so this holds
for every option value. -/
theorem parse_block_space_no_progress (opts : ParserOptions) :
    parse_block opts [32] 0 0 = PR.ok (none, 0) := by
  obtain ⟨g, fo, tl, tb, st, au, mx⟩ := opts
  cases tb <;> rfl

/-- C1: refuted by the code; the claim that parse runs to completion on
every input fails on the one-byte source consisting of a single space.  The
top-level block loop calls parse_block, which returns no node without
advancing the position, so the loop state repeats forever: for every option
value and every amount of fuel the model reports exhausted fuel, i.e. the
Rust loop never terminates. -/
theorem c1_parse_diverges_on_space (opts : ParserOptions) (fuel : Nat) :
    parse opts [32] fuel = PR.fuelOut := by
  induction fuel with
  | zero => rfl
  | succ f ih =>
    show parse_loop opts [32] (f + 1) 0 0 [] = PR.fuelOut
    rw [parse_loop, if_neg (by norm_num), parse_block_space_no_progress]
    exact ih

/-- C3: refuted by the code; on the source backslash followed by the
two-byte character U+00E9, the escape branch of parse_inline slices the
content between byte offsets 1 and 2, and offset 2 is not a character
boundary, so the Rust program panics (the model reports the panic through
the whole parse pipeline).  The second conjunct shows the ASCII half of the
claim does hold: backslash before an ASCII character yields that character
as a one-character Text node spanning both consumed bytes. -/
theorem c3_escape_panics_on_multibyte :
    parse defaultOptions [92, 195, 169] 5 = PR.panicked ∧
      parse_inline [92, 42] 0 = PR.ok [Node.text [42] ⟨0, 2⟩] :=
  ⟨rfl, rfl⟩

/-- C4, counterexample: inline parsing the unterminated input star-a does
not yield the single literal Text node containing both characters; the
opening run and the following ordinary run are emitted as two separate Text
nodes. -/
theorem c4_counterexample :
    ¬ (parse_inline [42, 97] 0 = PR.ok [Node.text [42, 97] ⟨0, 2⟩]) := by
  rw [show parse_inline [42, 97] 0
      = PR.ok [Node.text [42] ⟨0, 1⟩, Node.text [97] ⟨1, 2⟩] from rfl]
  simp

/-- C4, amended: star-a-star yields a single Emphasis node containing Text
a; double-star-a-double-star yields a single Strong node containing Text a;
the unterminated star-a yields the literal Text star followed by Text a (two
nodes, no crash and no error); and when a closing run is longer than the
opening run of length count, only its first count delimiter characters are
consumed, the rest remaining for further scanning, as witnessed by
star-a-three-stars and two-stars-a-three-stars. -/
theorem c4_emphasis_matching :
    parse_inline [42, 97, 42] 0
        = PR.ok [Node.emphasis [Node.text [97] ⟨1, 2⟩] ⟨0, 3⟩] ∧
      parse_inline [42, 42, 97, 42, 42] 0
        = PR.ok [Node.strong [Node.text [97] ⟨2, 3⟩] ⟨0, 5⟩] ∧
      parse_inline [42, 97] 0
        = PR.ok [Node.text [42] ⟨0, 1⟩, Node.text [97] ⟨1, 2⟩] ∧
      parse_inline [42, 97, 42, 42, 42] 0
        = PR.ok [Node.emphasis [Node.text [97] ⟨1, 2⟩] ⟨0, 3⟩,
            Node.text [42, 42] ⟨3, 5⟩] ∧
      parse_inline [42, 42, 97, 42, 42, 42] 0
        = PR.ok [Node.strong [Node.text [97] ⟨2, 3⟩] ⟨0, 5⟩,
            Node.text [42] ⟨5, 6⟩] :=
  ⟨rfl, rfl, rfl, rfl, rfl⟩

/-- C5: parsing the fenced block backticks-lang, content line, closing
backticks yields a CodeBlock with lang lang and value content plus newline;
a closing line shorter than the opening fence does not close the block while
a longer one does, and the closing line is consumed but excluded from the
value (second conjunct, fence of four closed by a fence of five with a
three-backtick line kept inside); with no closing fence the value runs to
the end of the input with no error (third conjunct). -/
theorem c5_fenced_code_blocks :
    parse defaultOptions [96, 96, 96, 108, 97, 110, 103, 10,
        99, 111, 110, 116, 101, 110, 116, 10, 96, 96, 96] 10
      = PR.ok ⟨[Node.codeBlock (some [108, 97, 110, 103]) none
          [99, 111, 110, 116, 101, 110, 116, 10] ⟨0, 19⟩], ⟨0, 19⟩⟩ ∧
      parse defaultOptions [96, 96, 96, 96, 10, 97, 98, 10,
          96, 96, 96, 10, 96, 96, 96, 96, 96] 10
        = PR.ok ⟨[Node.codeBlock none none
            [97, 98, 10, 96, 96, 96, 10] ⟨0, 17⟩], ⟨0, 17⟩⟩ ∧
      parse defaultOptions [96, 96, 96, 10, 97, 98, 99] 10
        = PR.ok ⟨[Node.codeBlock none none [97, 98, 99] ⟨0, 7⟩], ⟨0, 7⟩⟩ :=
  ⟨rfl, rfl, rfl⟩

/-- C6, counterexample: with the tables option enabled, the source a-pipe-b
over the second line colon-pipe-dash is parsed as a Table although the
colon cell does not match the regular expression of the claim, and with only
the gfm option enabled (tables off) the source a-pipe-b over dash-pipe-dash
is not parsed as a Table although its second line does match the claimed
delimiter-row pattern. -/
theorem c6_counterexample :
    firstIsTable (parse ⟨false, false, false, true, false, false, 0⟩
        [97, 124, 98, 10, 58, 124, 45] 5) = true ∧
      spec_delim_row [58, 124, 45] = false ∧
      firstIsTable (parse ⟨true, false, false, false, false, false, 0⟩
        [97, 124, 98, 10, 45, 124, 45] 5) = false ∧
      spec_delim_row [45, 124, 45] = true :=
  ⟨rfl, rfl, rfl, rfl⟩

/-- A byte string with the one-element pipe prefix contains a pipe. -/
theorem prefix_pipe_any (f : Bytes) (h : [124].isPrefixOf f = true) :
    f.any (· == 124) = true := by
  cases f with
  | nil => simp [List.isPrefixOf] at h
  | cons b t =>
    simp [List.isPrefixOf] at h
    simp [List.any_cons, h]

/-- The table recognizer of the source equals the declarative amended
characterization: two lines, a pipe in the trimmed first line, and the
amended delimiter-row condition on the trimmed second line. -/
theorem try_parse_table_core_characterization (bs : Bytes) :
    try_parse_table_core bs = amended_table_check bs := by
  unfold try_parse_table_core amended_table_check
  rcases h : (linesOf bs).take 2 with _ | ⟨l1, rest⟩
  · simp [h]
  rcases rest with _ | ⟨l2, rest2⟩
  · simp [h]
  have hr : rest2 = [] := by
    have hle : (l1 :: l2 :: rest2).length ≤ 2 := by
      rw [← h]; exact List.length_take_le _ _
    simpa using hle
  subst hr
  simp only [h]
  simp only [List.length_cons, List.length_nil, List.headD, List.getD,
    amended_delimiter_row]
  by_cases hA : (trimB l1).any (· == 124) = true
  · by_cases hB : (trimB l2).any (· == 124) = true
    · by_cases hC : (trimB l2).any (· == 45) = true
      · simp [hA, hB, hC]
      · simp [hA, hB, Bool.of_not_eq_true hC]
    · simp [hA, Bool.of_not_eq_true hB]
  · have hpre : [124].isPrefixOf (trimB l1) = false := by
      by_contra hcon
      exact hA (prefix_pipe_any _ (Bool.of_not_eq_false hcon))
    simp [Bool.of_not_eq_true hA, hpre]

/-- C6, amended: table recognition requires the tables option (the gfm
field alone does not enable it), and the delimiter-row condition the code
implements is: the second line contains a pipe and a dash, and every
nonempty pipe-separated cell of it trims to nothing or to a string of
dashes and colons only (first conjunct, an equivalence for every input).
Alignment mapping is as claimed: colon on both sides gives Center, leading
colon Left, trailing colon Right, neither None (second conjunct).  The
third and fourth conjuncts show the option dependence: the same pipe table
is a Table with tables on and a plain paragraph with only gfm on. -/
theorem c6_table_recognition :
    (∀ bs : Bytes, try_parse_table_core bs = amended_table_check bs) ∧
      parse ⟨false, false, false, true, false, false, 0⟩
          [104, 124, 105, 124, 106, 124, 107, 10, 58, 45, 45, 45, 58, 124,
            58, 45, 45, 45, 124, 45, 45, 45, 58, 124, 45, 45, 45] 10
        = PR.ok ⟨[Node.table
            [AlignKind.center, AlignKind.left, AlignKind.right, AlignKind.none]
            [Node.tableRow
              [Node.tableCell [Node.text [104] ⟨0, 1⟩] ⟨0, 0⟩,
               Node.tableCell [Node.text [105] ⟨0, 1⟩] ⟨0, 0⟩,
               Node.tableCell [Node.text [106] ⟨0, 1⟩] ⟨0, 0⟩,
               Node.tableCell [Node.text [107] ⟨0, 1⟩] ⟨0, 0⟩] ⟨0, 0⟩]
            ⟨0, 27⟩], ⟨0, 27⟩⟩ ∧
      firstIsTable (parse ⟨false, false, false, true, false, false, 0⟩
        [97, 124, 98, 10, 45, 124, 45] 6) = true ∧
      firstIsTable (parse ⟨true, false, false, false, false, false, 0⟩
        [97, 124, 98, 10, 45, 124, 45] 6) = false :=
  ⟨try_parse_table_core_characterization, rfl, rfl, rfl⟩

/-- A result that is not err is different from every err. -/
theorem ne_err_of_not_err {α : Type} {e : PR α} (h : isErrPR e = false)
    (s : Span) (m : Nat) : ¬ e = PR.err s m := by
  intro hc
  rw [hc] at h
  simp [isErrPR] at h

/-- Question-mark propagation cannot introduce err when neither side can. -/
theorem prBind_not_err {α β : Type} {e : PR α} {f : α → PR β}
    (h1 : isErrPR e = false) (h2 : ∀ a, isErrPR (f a) = false) :
    isErrPR (prBind e f) = false := by
  cases e with
  | ok a => exact h2 a
  | err s m => simp [isErrPR] at h1
  | panicked => rfl
  | fuelOut => rfl

/-- The inline loop never produces err: no branch constructs one. -/
theorem parse_inline_go_not_err : ∀ (fuel : Nat) (content : Bytes) (offset pos : Nat)
    (acc : List Node), isErrPR (parse_inline_go fuel content offset pos acc) = false := by
  intro fuel
  induction fuel with
  | zero => intros; rfl
  | succ f ih =>
    intro content offset pos acc
    rw [parse_inline_go]
    split
    next => rfl
    next =>
      generalize scan_text content pos = q
      dsimp only
      generalize (if pos < q then acc ++ [Node.text (sliceL content pos q)
        ⟨offset + pos, offset + q⟩] else acc) = acc2
      generalize (content.get? q).getD 0 = c
      generalize runLen content q c = k
      repeat' split
      all_goals try rfl
      all_goals try apply ih
      all_goals
        (apply prBind_not_err (ih _ _ _ _)
         intro a
         dsimp only
         apply ih)

/-- parse_inline never produces err. -/
theorem parse_inline_not_err (content : Bytes) (offset : Nat) :
    isErrPR (parse_inline content offset) = false := parse_inline_go_not_err _ _ _ _ _

/-- parse_heading never produces err. -/
theorem parse_heading_not_err (src : Bytes) (start : Nat) :
    isErrPR (parse_heading src start) = false := by
  unfold parse_heading
  dsimp only
  apply prBind_not_err
  · split
    · rfl
    · exact parse_inline_not_err _ _
  · intro a; rfl

/-- parse_thematic_break never produces err. -/
theorem parse_thematic_break_not_err (src : Bytes) (start : Nat) :
    isErrPR (parse_thematic_break src start) = false := rfl

/-- parse_fenced_code never produces err. -/
theorem parse_fenced_code_not_err (src : Bytes) (start : Nat) :
    isErrPR (parse_fenced_code src start) = false := by
  unfold parse_fenced_code
  dsimp only
  repeat' split
  all_goals rfl

/-- The table-cell assembly never produces err. -/
theorem build_cells_not_err : ∀ (cs : List Bytes), isErrPR (build_cells cs) = false := by
  intro cs
  induction cs with
  | nil => rfl
  | cons c rest ih =>
    rw [build_cells]
    exact prBind_not_err (parse_inline_not_err _ _) fun a =>
      prBind_not_err ih fun b => rfl

/-- The table-row assembly never produces err. -/
theorem build_rows_not_err : ∀ (rs : List (List Bytes)), isErrPR (build_rows rs) = false := by
  intro rs
  induction rs with
  | nil => rfl
  | cons r rest ih =>
    rw [build_rows]
    exact prBind_not_err (build_cells_not_err _) fun a =>
      prBind_not_err ih fun b => rfl

/-- parse_table never produces err. -/
theorem parse_table_not_err (src : Bytes) (start : Nat) :
    isErrPR (parse_table src start) = false := by
  unfold parse_table
  dsimp only
  apply prBind_not_err (build_rows_not_err _)
  intro a; rfl

/-- The list-item loop never produces err. -/
theorem list_items_loop_not_err : ∀ (fuel : Nat) (opts : ParserOptions) (src : Bytes)
    (baseline : Nat) (ordered : Bool) (pos : Nat) (acc : List Node),
    isErrPR (list_items_loop fuel opts src baseline ordered pos acc) = false := by
  intro fuel
  induction fuel with
  | zero => intros; rfl
  | succ f ih =>
    intro opts src baseline ordered pos acc
    rw [list_items_loop]
    dsimp only
    repeat' split
    all_goals try rfl
    all_goals try apply ih
    all_goals
      (first
        | (apply prBind_not_err (ih _ _ _ _ _ _)
           intro a
           dsimp only
           apply ih)
        | (apply prBind_not_err (parse_inline_not_err _ _)
           intro a
           dsimp only
           apply ih))

/-- parse_list never produces err. -/
theorem parse_list_not_err (opts : ParserOptions) (src : Bytes) (start : Nat) :
    isErrPR (parse_list opts src start) = false := by
  unfold parse_list
  dsimp only
  apply prBind_not_err (list_items_loop_not_err _ _ _ _ _ _ _)
  intro a; rfl

/-- parse_paragraph never produces err. -/
theorem parse_paragraph_not_err (opts : ParserOptions) (src : Bytes) (start : Nat) :
    isErrPR (parse_paragraph opts src start) = false := by
  unfold parse_paragraph
  dsimp only
  split
  · rfl
  · apply prBind_not_err (parse_inline_not_err _ _)
    intro a; rfl

/-- With the nesting counter at its initial value 0, the nesting guard of
parse_block can never fire (0 exceeds no Nat bound), and no other branch can
produce err. -/
theorem parse_block_not_err (opts : ParserOptions) (src : Bytes) (pos0 : Nat) :
    isErrPR (parse_block opts src 0 pos0) = false := by
  unfold parse_block
  dsimp only
  by_cases h1 : src.length ≤ skip_blank_lines src pos0
  · rw [if_pos h1]; rfl
  rw [if_neg h1, if_neg (Nat.not_lt_zero _)]
  by_cases h2 : try_parse_heading src (skip_blank_lines src pos0) = true
  · rw [if_pos h2]; exact parse_heading_not_err _ _
  rw [if_neg h2]
  by_cases h3 : try_parse_thematic_break src (skip_blank_lines src pos0) = true
  · rw [if_pos h3]; exact parse_thematic_break_not_err _ _
  rw [if_neg h3]
  by_cases h4 : try_parse_fenced_code src (skip_blank_lines src pos0) = true
  · rw [if_pos h4]; exact parse_fenced_code_not_err _ _
  rw [if_neg h4]
  by_cases h5 : (opts.tables && try_parse_table src (skip_blank_lines src pos0)) = true
  · rw [if_pos h5]; exact parse_table_not_err _ _
  rw [if_neg h5]
  by_cases h6 : try_parse_list src (skip_blank_lines src pos0) = true
  · rw [if_pos h6]; exact parse_list_not_err _ _ _
  rw [if_neg h6]
  exact parse_paragraph_not_err _ _ _

/-- The block loop with the nesting counter at 0 never produces err. -/
theorem parse_loop_not_err : ∀ (fuel : Nat) (opts : ParserOptions) (src : Bytes)
    (pos : Nat) (acc : List Node),
    isErrPR (parse_loop opts src fuel 0 pos acc) = false := by
  intro fuel
  induction fuel with
  | zero => intros; rfl
  | succ f ih =>
    intro opts src pos acc
    rw [parse_loop]
    split
    · rfl
    · apply prBind_not_err (parse_block_not_err _ _ _)
      intro a
      rcases a with ⟨_ | n, pos2⟩ <;> apply ih

/-- C2: confirmed; the nesting counter is initialized to 0 and never
assigned on any code path (the model threads it through every call
unchanged, exactly as the source never mutates the field), so the
NestingTooDeep guard, the only err source, compares 0 against the
configured bound and can never fire: for every source, every option value
(max_nesting_depth 0 included) and every amount of fuel, parse does not
return err. -/
theorem c2_nesting_error_unreachable (opts : ParserOptions) (src : Bytes) (fuel : Nat) :
    isErrPR (parse opts src fuel) = false := parse_loop_not_err fuel opts src 0 []

/-- The list-item marker check reads only the task_lists field. -/
theorem list_item_content_congr {o1 o2 : ParserOptions}
    (h : o1.task_lists = o2.task_lists) (trimmed : Bytes) (ordered : Bool) :
    list_item_content o1 trimmed ordered = list_item_content o2 trimmed ordered := by
  unfold list_item_content
  rw [h]

/-- The list loop reads only the task_lists field of the options. -/
theorem list_items_loop_congr {o1 o2 : ParserOptions}
    (h : o1.task_lists = o2.task_lists) :
    ∀ (fuel : Nat) (src : Bytes) (baseline : Nat) (ordered : Bool) (pos : Nat)
    (acc : List Node),
    list_items_loop fuel o1 src baseline ordered pos acc
      = list_items_loop fuel o2 src baseline ordered pos acc := by
  intro fuel
  induction fuel with
  | zero => intros; rfl
  | succ f ih =>
    intro src baseline ordered pos acc
    rw [list_items_loop, list_items_loop]
    have hc := list_item_content_congr h
    simp only [hc, ih]

/-- The paragraph loop reads only the tables field of the options. -/
theorem paragraph_loop_congr {o1 o2 : ParserOptions} (h : o1.tables = o2.tables) :
    ∀ (fuel : Nat) (src : Bytes) (pos ce : Nat),
    paragraph_loop o1 src fuel pos ce = paragraph_loop o2 src fuel pos ce := by
  intro fuel
  induction fuel with
  | zero => intros; rfl
  | succ f ih =>
    intro src pos ce
    rw [paragraph_loop, paragraph_loop]
    simp only [h, ih]

/-- parse_paragraph reads only the tables field of the options. -/
theorem parse_paragraph_congr {o1 o2 : ParserOptions} (h : o1.tables = o2.tables)
    (src : Bytes) (start : Nat) :
    parse_paragraph o1 src start = parse_paragraph o2 src start := by
  unfold parse_paragraph
  simp only [paragraph_loop_congr h]

/-- parse_list reads only the task_lists field of the options. -/
theorem parse_list_congr {o1 o2 : ParserOptions} (h : o1.task_lists = o2.task_lists)
    (src : Bytes) (start : Nat) :
    parse_list o1 src start = parse_list o2 src start := by
  unfold parse_list
  simp only [list_items_loop_congr h]

/-- With the nesting counter at 0 the bound comparison is false for every
bound, so parse_block depends only on the tables and task_lists fields. -/
theorem parse_block_congr {o1 o2 : ParserOptions} (h1 : o1.tables = o2.tables)
    (h2 : o1.task_lists = o2.task_lists) (src : Bytes) (pos0 : Nat) :
    parse_block o1 src 0 pos0 = parse_block o2 src 0 pos0 := by
  unfold parse_block
  dsimp only
  rw [if_neg (Nat.not_lt_zero _), if_neg (Nat.not_lt_zero _), h1,
    parse_list_congr h2, parse_paragraph_congr h1]

/-- The block loop with the nesting counter at 0 depends only on the tables
and task_lists fields. -/
theorem parse_loop_congr {o1 o2 : ParserOptions} (h1 : o1.tables = o2.tables)
    (h2 : o1.task_lists = o2.task_lists) :
    ∀ (fuel : Nat) (src : Bytes) (pos : Nat) (acc : List Node),
    parse_loop o1 src fuel 0 pos acc = parse_loop o2 src fuel 0 pos acc := by
  intro fuel
  induction fuel with
  | zero => intros; rfl
  | succ f ih =>
    intro src pos acc
    rw [parse_loop, parse_loop]
    split
    · rfl
    · rw [parse_block_congr h1 h2]
      cases parse_block o2 src 0 pos with
      | ok a =>
        rcases a with ⟨_ | n, pos2⟩
        · exact ih src pos2 acc
        · exact ih src pos2 (acc ++ [n])
      | err s m => rfl
      | panicked => rfl
      | fuelOut => rfl

/-- C9: confirmed; two option values that agree on tables and task_lists
give identical parse results on every source (and every fuel): the gfm,
footnotes, strikethrough and autolinks fields are never read, and the
max_nesting_depth field is only compared against the never-incremented
nesting counter 0, a comparison that is false for every bound. -/
theorem c9_options_dependence {o1 o2 : ParserOptions} (h1 : o1.tables = o2.tables)
    (h2 : o1.task_lists = o2.task_lists) (src : Bytes) (fuel : Nat) :
    parse o1 src fuel = parse o2 src fuel := parse_loop_congr h1 h2 fuel src 0 []

/-- Witness for C9 at a concrete pair of option values differing in gfm,
footnotes, strikethrough, autolinks and max_nesting_depth only. -/
theorem c9_options_dependence_witness :
    parse ⟨true, true, false, false, true, true, 7⟩ [42] 4
      = parse defaultOptions [42] 4 :=
  @c9_options_dependence ⟨true, true, false, false, true, true, 7⟩
    defaultOptions rfl rfl [42] 4


theorem trimEndB_cons_of_not_ws (a : Nat) (l : Bytes) (h : isUniWsByte a = false) :
    trimEndB (a :: l) = a :: trimEndB l := by
  unfold trimEndB
  rw [List.reverse_cons, List.dropWhile_append]
  split
  · rename_i he
    rw [List.isEmpty_iff] at he
    simp [List.dropWhile_cons, h, he]
  · simp

theorem takeWhile_replicate_marker (n : Nat) (text : Bytes) :
    ((List.replicate n 35 ++ 32 :: text).takeWhile (· == 35)) = List.replicate n 35 := by
  induction n with
  | zero => simp [List.takeWhile_cons]
  | succ k ih => simp [List.replicate_succ, List.takeWhile_cons, ih]

theorem runLen_hashes (n : Nat) (text : Bytes) :
    runLen (List.replicate n 35 ++ 32 :: text) 0 35 = n := by
  unfold runLen
  rw [List.drop_zero, takeWhile_replicate_marker, List.length_replicate]

theorem drop_hashes (n : Nat) (text : Bytes) :
    (List.replicate n 35 ++ 32 :: text).drop n = 32 :: text := by
  have := List.drop_left (List.replicate n 35) (32 :: text)
  rwa [List.length_replicate] at this

theorem skip_whitespace_aux_not_ws (l : Bytes) (pos : Nat)
    (h : ∀ b, l.head? = some b → isWsByte b = false) :
    skip_whitespace_aux l pos = pos := by
  cases l with
  | nil => rfl
  | cons b t =>
    rw [skip_whitespace_aux]
    rw [h b rfl]
    simp

theorem scan_to_nl_aux_no_nl (l : Bytes) : ∀ (pos : Nat), (∀ b ∈ l, ¬ b = 10) →
    scan_to_nl_aux l pos = pos + l.length := by
  induction l with
  | nil => intro pos h; simp [scan_to_nl_aux]
  | cons b t ih =>
    intro pos h
    rw [scan_to_nl_aux]
    have hb : (b == 10) = false := by
      simp
      exact h b (List.mem_cons_self b t)
    simp only [hb, Bool.false_eq_true, if_false, List.length_cons]
    rw [ih (pos + 1) (fun x hx => h x (List.mem_cons_of_mem b hx))]
    omega

theorem consume_line_aux_no_nl (l : Bytes) : ∀ (pos : Nat), (∀ b ∈ l, ¬ b = 10) →
    consume_line_aux l pos = pos + l.length := by
  induction l with
  | nil => intro pos h; simp [consume_line_aux]
  | cons b t ih =>
    intro pos h
    rw [consume_line_aux]
    have hb : (b == 10) = false := by
      simp
      exact h b (List.mem_cons_self b t)
    simp only [hb, Bool.false_eq_true, if_false, List.length_cons]
    rw [ih (pos + 1) (fun x hx => h x (List.mem_cons_of_mem b hx))]
    omega

theorem parse_inline_nil (offset : Nat) : parse_inline [] offset = PR.ok [] := rfl

theorem drop_hashes_succ (n : Nat) (text : Bytes) :
    (List.replicate n 35 ++ 32 :: text).drop (n + 1) = text := by
  have h2 := drop_hashes n text
  have : (List.replicate n 35 ++ 32 :: text).drop (n + 1)
      = ((List.replicate n 35 ++ 32 :: text).drop n).drop 1 := by
    rw [List.drop_drop]
  rw [this, h2]
  rfl

theorem length_hash_src (n : Nat) (text : Bytes) :
    (List.replicate n 35 ++ 32 :: text).length = n + 1 + text.length := by
  simp
  omega

theorem sw_after_hashes (n : Nat) (text : Bytes)
    (hh : ∀ b, text.head? = some b → isWsByte b = false) :
    skip_whitespace (List.replicate n 35 ++ 32 :: text) n = n + 1 := by
  unfold skip_whitespace
  rw [drop_hashes]
  rw [skip_whitespace_aux]
  rw [show isWsByte 32 = true from rfl]
  simp only [if_true]
  exact skip_whitespace_aux_not_ws text (n + 1) hh

theorem scan_after_hashes (n : Nat) (text : Bytes) (hnl : 10 ∉ text) :
    scan_to_nl (List.replicate n 35 ++ 32 :: text) (n + 1) = n + 1 + text.length := by
  unfold scan_to_nl
  rw [drop_hashes_succ]
  exact scan_to_nl_aux_no_nl text (n + 1) (fun b hb e => hnl (e ▸ hb))

theorem slice_text (n : Nat) (text : Bytes) :
    sliceL (List.replicate n 35 ++ 32 :: text) (n + 1) (n + 1 + text.length) = text := by
  unfold sliceL
  rw [drop_hashes_succ]
  have : n + 1 + text.length - (n + 1) = text.length := by omega
  rw [this, List.take_length]

theorem sbl_zero_hash (t : Bytes) : skip_blank_lines (35 :: t) 0 = 0 := by
  show skip_blank_lines_aux (35 :: t) ((35 :: t).length + 1) 0 = 0
  rw [show (35 :: t).length + 1 = (t.length + 1) + 1 by simp]
  rw [skip_blank_lines_aux]
  simp [skip_whitespace, skip_whitespace_aux, isWsByte, peekB]

theorem hash_src_cons (n : Nat) (text : Bytes) (hn1 : 1 ≤ n) :
    List.replicate n 35 ++ 32 :: text
      = 35 :: (List.replicate (n - 1) 35 ++ 32 :: text) := by
  obtain ⟨k, rfl⟩ : ∃ k, n = k + 1 := ⟨n - 1, by omega⟩
  simp [List.replicate_succ]

theorem tph_true (n : Nat) (text : Bytes) (hn1 : 1 ≤ n) (hn6 : n ≤ 6) :
    try_parse_heading (List.replicate n 35 ++ 32 :: text) 0 = true := by
  unfold try_parse_heading
  rw [runLen_hashes]
  rw [if_neg (by omega)]
  rw [show (n == 0) = false by simp; omega]
  simp only [Bool.false_eq_true, if_false, Nat.zero_add]
  rw [drop_hashes]
  rfl

theorem parse_heading_eq (n : Nat) (text : Bytes) (hnl : 10 ∉ text)
    (hh : ∀ b, text.head? = some b → isWsByte b = false) :
    parse_heading (List.replicate n 35 ++ 32 :: text) 0
      = prBind (parse_inline (trimEndB (trimEndMatchesB 35 (trimEndB text))) (n + 1))
          (fun children => PR.ok (some (Node.heading n children
            ⟨0, n + 1 + text.length⟩), n + 1 + text.length)) := by
  unfold parse_heading
  dsimp only
  rw [runLen_hashes]
  rw [show (0 : Nat) + n = n from by omega]
  rw [sw_after_hashes n text hh]
  rw [scan_after_hashes n text hnl]
  rw [slice_text]
  have hpeek : peekB (List.replicate n 35 ++ 32 :: text) (n + 1 + text.length) = none := by
    unfold peekB
    apply List.get?_len_le
    rw [length_hash_src]
  rw [hpeek]
  simp only [show ((none : Option Nat) == some 10) = false from rfl,
    Bool.false_eq_true, if_false]
  by_cases hT : (trimEndB (trimEndMatchesB 35 (trimEndB text))).isEmpty = true
  · rw [if_pos hT, List.isEmpty_iff.mp hT, parse_inline_nil]
  · rw [if_neg hT]

theorem parse_block_heading_eq (opts : ParserOptions) (n : Nat) (text : Bytes)
    (hn1 : 1 ≤ n) (hn6 : n ≤ 6) :
    parse_block opts (List.replicate n 35 ++ 32 :: text) 0 0
      = parse_heading (List.replicate n 35 ++ 32 :: text) 0 := by
  unfold parse_block
  dsimp only
  rw [show skip_blank_lines (List.replicate n 35 ++ 32 :: text) 0 = 0 from by
    rw [hash_src_cons n text hn1]; exact sbl_zero_hash _]
  rw [if_neg (by rw [length_hash_src]; omega)]
  rw [if_neg (Nat.not_lt_zero _)]
  rw [if_pos (tph_true n text hn1 hn6)]

theorem c7_heading_part (opts : ParserOptions) (n : Nat) (text : Bytes) (fuel : Nat)
    (hn1 : 1 ≤ n) (hn6 : n ≤ 6) (hnl : 10 ∉ text)
    (hh : ∀ b, text.head? = some b → isWsByte b = false) (hf : 2 ≤ fuel) :
    parse opts (List.replicate n 35 ++ 32 :: text) fuel
      = prBind (parse_inline (trimEndB (trimEndMatchesB 35 (trimEndB text))) (n + 1))
          (fun children => PR.ok ⟨[Node.heading n children
            ⟨0, n + 1 + text.length⟩], ⟨0, n + 1 + text.length⟩⟩) := by
  obtain ⟨f, rfl⟩ : ∃ f, fuel = f + 2 := ⟨fuel - 2, by omega⟩
  show parse_loop opts (List.replicate n 35 ++ 32 :: text) (f + 1 + 1) 0 0 [] = _
  rw [parse_loop]
  rw [if_neg (by rw [length_hash_src]; omega)]
  rw [parse_block_heading_eq opts n text hn1 hn6]
  rw [parse_heading_eq n text hnl hh]
  cases hpi : parse_inline (trimEndB (trimEndMatchesB 35 (trimEndB text))) (n + 1) with
  | ok ch =>
    show parse_loop _ _ (f + 1) 0 (n + 1 + text.length) [Node.heading n ch _] = _
    rw [parse_loop]
    rw [if_pos (by rw [length_hash_src])]
    rw [length_hash_src]
    rfl
  | err s m => rfl
  | panicked => rfl
  | fuelOut => rfl

theorem takeWhile_ne_nl_all (bs : Bytes) (h : ∀ b ∈ bs, ¬ b = 10) :
    bs.takeWhile (· != 10) = bs := by
  induction bs with
  | nil => rfl
  | cons b t ih =>
    rw [List.takeWhile_cons]
    rw [show (b != 10) = true by simp; exact h b (List.mem_cons_self b t)]
    simp only [if_true]
    rw [ih (fun x hx => h x (List.mem_cons_of_mem b hx))]

theorem firstLineB_no_nl (bs : Bytes) (h : ∀ b ∈ bs, ¬ b = 10) :
    firstLineB bs = bs := by
  unfold firstLineB
  rw [takeWhile_ne_nl_all bs h]
  simp

theorem linesOf_no_nl (bs : Bytes) (hne : bs ≠ []) (h : ∀ b ∈ bs, ¬ b = 10) :
    linesOf bs = [bs] := by
  unfold linesOf
  rw [show bs.length + 1 = bs.length + 1 from rfl, lines_aux]
  rw [show bs.isEmpty = false by rwa [List.isEmpty_eq_false]]
  simp only [Bool.false_eq_true, if_false]
  rw [takeWhile_ne_nl_all bs h]
  rw [List.drop_length]

theorem no_nl_hash_src (n : Nat) (text : Bytes) (hnl : 10 ∉ text) :
    ∀ b ∈ List.replicate n 35 ++ 32 :: text, ¬ b = 10 := by
  intro b hb e
  subst e
  rcases List.mem_append.mp hb with h | h
  · have := List.eq_of_mem_replicate h
    omega
  · rcases List.mem_cons.mp h with h2 | h2
    · omega
    · exact hnl h2

theorem trimB_hash_cons (t : Bytes) : ∃ u : Bytes, trimB (35 :: t) = 35 :: u := by
  unfold trimB trimStartB
  rw [List.dropWhile_cons]
  rw [show isUniWsByte 35 = false from rfl]
  simp only [Bool.false_eq_true, if_false]
  exact ⟨trimEndB t, trimEndB_cons_of_not_ws 35 t rfl⟩

theorem tpt_false_no_nl (src : Bytes) (hne : src ≠ []) (h : ∀ b ∈ src, ¬ b = 10) :
    try_parse_table src 0 = false := by
  unfold try_parse_table try_parse_table_core
  rw [List.drop_zero, linesOf_no_nl src hne h]
  rfl

theorem tphead_false_7 (text : Bytes) :
    try_parse_heading (List.replicate 7 35 ++ 32 :: text) 0 = false := by
  unfold try_parse_heading
  rw [runLen_hashes]
  rw [if_pos (by omega)]

theorem tpthem_false_hash (src : Bytes) (t : Bytes) (hsrc : src = 35 :: t)
    (hnl : ∀ b ∈ src, ¬ b = 10) :
    try_parse_thematic_break src 0 = false := by
  unfold try_parse_thematic_break
  rw [List.drop_zero, firstLineB_no_nl src hnl, hsrc]
  obtain ⟨u, hu⟩ := trimB_hash_cons t
  rw [hu]
  dsimp only
  split
  · rfl
  · rfl

theorem tpf_false_hash (src : Bytes) (t : Bytes) (hsrc : src = 35 :: t) :
    try_parse_fenced_code src 0 = false := by
  unfold try_parse_fenced_code
  rw [List.drop_zero, hsrc]
  rfl

theorem tpl_false_hash (src : Bytes) (t : Bytes) (hsrc : src = 35 :: t)
    (hnl : ∀ b ∈ src, ¬ b = 10) :
    try_parse_list src 0 = false := by
  unfold try_parse_list
  rw [List.drop_zero, firstLineB_no_nl src hnl, hsrc]
  unfold trimStartB
  dsimp only
  rw [List.dropWhile_cons]
  rw [show isUniWsByte 35 = false from rfl]
  simp only [Bool.false_eq_true, if_false]
  rfl

theorem paragraph_loop_one_line (opts : ParserOptions) (text : Bytes) (hnl : 10 ∉ text) :
    paragraph_loop opts (List.replicate 7 35 ++ 32 :: text)
      ((List.replicate 7 35 ++ 32 :: text).length + 1) 0 0
      = ((List.replicate 7 35 ++ 32 :: text).length,
         (List.replicate 7 35 ++ 32 :: text).length) := by
  have hcons := hash_src_cons 7 text (by omega)
  have hno := no_nl_hash_src 7 text hnl
  have hne : (List.replicate 7 35 ++ 32 :: text) ≠ [] := by
    rw [hcons]; exact List.cons_ne_nil _ _
  rw [paragraph_loop]
  rw [if_neg (by rw [length_hash_src]; omega)]
  dsimp only
  rw [show skip_whitespace (List.replicate 7 35 ++ 32 :: text) 0 = 0 from by
    unfold skip_whitespace
    rw [List.drop_zero, hcons]
    rw [skip_whitespace_aux]
    rfl]
  rw [show peekB (List.replicate 7 35 ++ 32 :: text) 0 = some 35 from by
    rw [hcons]; rfl]
  rw [show ((some 35 : Option Nat) == some 10) = false from rfl]
  rw [if_neg (by simp [length_hash_src])]
  rw [tphead_false_7 text]
  rw [tpthem_false_hash _ _ hcons hno]
  rw [tpf_false_hash _ _ hcons]
  rw [tpt_false_no_nl _ hne hno]
  rw [tpl_false_hash _ _ hcons hno]
  simp only [Bool.and_false, Bool.or_self, Bool.false_eq_true, if_false,
    Bool.false_or, Bool.or_false]
  rw [show consume_line_pos (List.replicate 7 35 ++ 32 :: text) 0
      = (List.replicate 7 35 ++ 32 :: text).length from by
    unfold consume_line_pos
    rw [List.drop_zero]
    rw [consume_line_aux_no_nl _ 0 hno]
    omega]
  obtain ⟨k, hk⟩ : ∃ k, (List.replicate 7 35 ++ 32 :: text).length = k + 1 :=
    ⟨7 + text.length, by rw [length_hash_src]; omega⟩
  rw [hk]
  rw [paragraph_loop]
  rw [if_pos (by rw [hk])]

theorem sliceL_full (bs : Bytes) : sliceL bs 0 bs.length = bs := by
  unfold sliceL
  rw [List.drop_zero, Nat.sub_zero, List.take_length]

theorem parse_paragraph_7 (opts : ParserOptions) (text : Bytes) (hnl : 10 ∉ text) :
    parse_paragraph opts (List.replicate 7 35 ++ 32 :: text) 0
      = prBind (parse_inline (trimB (List.replicate 7 35 ++ 32 :: text)) 0)
          (fun children => PR.ok (some (Node.paragraph children
            ⟨0, (List.replicate 7 35 ++ 32 :: text).length⟩),
            (List.replicate 7 35 ++ 32 :: text).length)) := by
  unfold parse_paragraph
  rw [paragraph_loop_one_line opts text hnl]
  dsimp only
  rw [sliceL_full]
  have hcons := hash_src_cons 7 text (by omega)
  obtain ⟨u, hu⟩ : ∃ u, trimB (List.replicate 7 35 ++ 32 :: text) = 35 :: u := by
    rw [hcons]; exact trimB_hash_cons _
  rw [hu]
  rfl

theorem parse_block_7 (opts : ParserOptions) (text : Bytes) (hnl : 10 ∉ text) :
    parse_block opts (List.replicate 7 35 ++ 32 :: text) 0 0
      = parse_paragraph opts (List.replicate 7 35 ++ 32 :: text) 0 := by
  have hcons := hash_src_cons 7 text (by omega)
  have hno := no_nl_hash_src 7 text hnl
  have hne : (List.replicate 7 35 ++ 32 :: text) ≠ [] := by
    rw [hcons]; exact List.cons_ne_nil _ _
  unfold parse_block
  dsimp only
  rw [show skip_blank_lines (List.replicate 7 35 ++ 32 :: text) 0 = 0 from by
    rw [hcons]; exact sbl_zero_hash _]
  rw [if_neg (by rw [length_hash_src]; omega)]
  rw [if_neg (Nat.not_lt_zero _)]
  rw [tphead_false_7 text]
  rw [tpthem_false_hash _ _ hcons hno]
  rw [tpf_false_hash _ _ hcons]
  rw [tpt_false_no_nl _ hne hno]
  rw [tpl_false_hash _ _ hcons hno]
  simp only [Bool.and_false, Bool.false_eq_true, if_false]

theorem c7_paragraph_part (opts : ParserOptions) (text : Bytes) (fuel : Nat)
    (hnl : 10 ∉ text) (hf : 2 ≤ fuel) :
    parse opts (List.replicate 7 35 ++ 32 :: text) fuel
      = prBind (parse_inline (trimB (List.replicate 7 35 ++ 32 :: text)) 0)
          (fun children => PR.ok ⟨[Node.paragraph children ⟨0, 8 + text.length⟩],
            ⟨0, 8 + text.length⟩⟩) := by
  obtain ⟨f, rfl⟩ : ∃ f, fuel = f + 2 := ⟨fuel - 2, by omega⟩
  have hlen : (List.replicate 7 35 ++ 32 :: text).length = 8 + text.length := by
    rw [length_hash_src]
  show parse_loop opts (List.replicate 7 35 ++ 32 :: text) (f + 1 + 1) 0 0 [] = _
  rw [parse_loop]
  rw [if_neg (by rw [hlen]; omega)]
  rw [parse_block_7 opts text hnl]
  rw [parse_paragraph_7 opts text hnl]
  cases hpi : parse_inline (trimB (List.replicate 7 35 ++ 32 :: text)) 0 with
  | ok ch =>
    simp only [prBind]
    rw [parse_loop]
    rw [if_pos (Nat.le_refl _)]
    rw [hlen]
    rfl
  | err s m => rfl
  | panicked => rfl
  | fuelOut => rfl

/-- C7, amended: for n from 1 to 6 and any newline-free text that does not
begin with a space or tab, parsing the n hashes, a space, then text yields a
document whose sole block is Heading depth n spanning the whole input, with
children the inline parse (at offset n plus 1) of text with its trailing
whitespace, hash run and whitespace again trimmed (expressed through prBind
so that a panic or fuel exhaustion of the inline parse propagates
identically on both sides); seven hashes yield instead a single Paragraph
whose children are the inline parse of the whole trimmed line.  Two steps of
block-loop fuel suffice for any text. -/
theorem c7_heading_rule (opts : ParserOptions) (n : Nat) (text : Bytes) (fuel : Nat)
    (hn1 : 1 ≤ n) (hn6 : n ≤ 6) (hnl : 10 ∉ text)
    (hh1 : text.head? ≠ some 32) (hh2 : text.head? ≠ some 9) (hf : 2 ≤ fuel) :
    parse opts (List.replicate n 35 ++ 32 :: text) fuel
      = prBind (parse_inline (trimEndB (trimEndMatchesB 35 (trimEndB text))) (n + 1))
          (fun children => PR.ok ⟨[Node.heading n children
            ⟨0, n + 1 + text.length⟩], ⟨0, n + 1 + text.length⟩⟩) ∧
    parse opts (List.replicate 7 35 ++ 32 :: text) fuel
      = prBind (parse_inline (trimB (List.replicate 7 35 ++ 32 :: text)) 0)
          (fun children => PR.ok ⟨[Node.paragraph children ⟨0, 8 + text.length⟩],
            ⟨0, 8 + text.length⟩⟩) := by
  have hh : ∀ b, text.head? = some b → isWsByte b = false := by
    intro b hb
    unfold isWsByte
    have h32 : ¬ b = 32 := fun e => hh1 (e ▸ hb)
    have h9 : ¬ b = 9 := fun e => hh2 (e ▸ hb)
    simp [h32, h9]
  exact ⟨c7_heading_part opts n text fuel hn1 hn6 hnl hh hf,
    c7_paragraph_part opts text fuel hnl hf⟩

/-- Witness for C7 at n equal 1, text the single letter a, fuel 2. -/
theorem c7_heading_rule_witness :
    (parse defaultOptions (List.replicate 1 35 ++ 32 :: [97]) 2
      = prBind (parse_inline (trimEndB (trimEndMatchesB 35 (trimEndB [97]))) (1 + 1))
          (fun children => PR.ok ⟨[Node.heading 1 children
            ⟨0, 1 + 1 + [97].length⟩], ⟨0, 1 + 1 + [97].length⟩⟩)) ∧
    parse defaultOptions (List.replicate 7 35 ++ 32 :: [97]) 2
      = prBind (parse_inline (trimB (List.replicate 7 35 ++ 32 :: [97])) 0)
          (fun children => PR.ok ⟨[Node.paragraph children ⟨0, 8 + [97].length⟩],
            ⟨0, 8 + [97].length⟩⟩) :=
  c7_heading_rule defaultOptions 1 [97] 2 (by decide) (by decide) (by decide)
    (by decide) (by decide) (by decide)

/-- C7, counterexample: at n equal 1 and text a-newline-b the claim fails:
the heading consumes only the first line, its children are the inline parse
of just the letter a, not of the full text, and the document has a second
block; the inline parse of the full text would be the single Text node of
all three bytes, which differs from the heading children. -/
theorem c7_counterexample :
    parse defaultOptions [35, 32, 97, 10, 98] 5
      = PR.ok ⟨[Node.heading 1 [Node.text [97] ⟨2, 3⟩] ⟨0, 4⟩,
          Node.paragraph [Node.text [98] ⟨4, 5⟩] ⟨4, 5⟩], ⟨0, 5⟩⟩ ∧
    parse_inline [97, 10, 98] 2 = PR.ok [Node.text [97, 10, 98] ⟨2, 5⟩] ∧
    ¬ ([Node.text [97] ⟨2, 3⟩] = [Node.text [97, 10, 98] ⟨2, 5⟩]) := by
  refine ⟨rfl, rfl, ?_⟩
  simp

theorem skip_whitespace_aux_ge (l : Bytes) : ∀ (pos : Nat), pos ≤ skip_whitespace_aux l pos := by
  induction l with
  | nil => intro pos; exact Nat.le_refl _
  | cons b t ih =>
    intro pos
    rw [skip_whitespace_aux]
    split
    · exact Nat.le_trans (Nat.le_succ _) (ih (pos + 1))
    · exact Nat.le_refl _

theorem skip_whitespace_aux_le (l : Bytes) : ∀ (pos : Nat),
    skip_whitespace_aux l pos ≤ pos + l.length := by
  induction l with
  | nil => intro pos; simp [skip_whitespace_aux]
  | cons b t ih =>
    intro pos
    rw [skip_whitespace_aux]
    split
    · exact Nat.le_trans (ih (pos + 1)) (by simp; omega)
    · simp

theorem skip_whitespace_ge (src : Bytes) (pos : Nat) :
    pos ≤ skip_whitespace src pos := skip_whitespace_aux_ge _ _

theorem skip_whitespace_le (src : Bytes) (pos : Nat) (h : pos ≤ src.length) :
    skip_whitespace src pos ≤ src.length := by
  have := skip_whitespace_aux_le (src.drop pos) pos
  rw [List.length_drop] at this
  unfold skip_whitespace
  omega

theorem scan_to_nl_aux_ge (l : Bytes) : ∀ (pos : Nat), pos ≤ scan_to_nl_aux l pos := by
  induction l with
  | nil => intro pos; exact Nat.le_refl _
  | cons b t ih =>
    intro pos
    rw [scan_to_nl_aux]
    split
    · exact Nat.le_refl _
    · exact Nat.le_trans (Nat.le_succ _) (ih (pos + 1))

theorem scan_to_nl_aux_le (l : Bytes) : ∀ (pos : Nat),
    scan_to_nl_aux l pos ≤ pos + l.length := by
  induction l with
  | nil => intro pos; simp [scan_to_nl_aux]
  | cons b t ih =>
    intro pos
    rw [scan_to_nl_aux]
    split
    · simp
    · exact Nat.le_trans (ih (pos + 1)) (by simp; omega)

theorem scan_to_nl_ge (src : Bytes) (pos : Nat) :
    pos ≤ scan_to_nl src pos := scan_to_nl_aux_ge _ _

theorem scan_to_nl_le (src : Bytes) (pos : Nat) (h : pos ≤ src.length) :
    scan_to_nl src pos ≤ src.length := by
  have := scan_to_nl_aux_le (src.drop pos) pos
  rw [List.length_drop] at this
  unfold scan_to_nl
  omega

theorem consume_line_aux_ge (l : Bytes) : ∀ (pos : Nat), pos ≤ consume_line_aux l pos := by
  induction l with
  | nil => intro pos; exact Nat.le_refl _
  | cons b t ih =>
    intro pos
    rw [consume_line_aux]
    split
    · omega
    · exact Nat.le_trans (Nat.le_succ _) (ih (pos + 1))

theorem consume_line_aux_le (l : Bytes) : ∀ (pos : Nat),
    consume_line_aux l pos ≤ pos + l.length := by
  induction l with
  | nil => intro pos; simp [consume_line_aux]
  | cons b t ih =>
    intro pos
    rw [consume_line_aux]
    split
    · simp
    · exact Nat.le_trans (ih (pos + 1)) (by simp; omega)

theorem consume_line_pos_ge (src : Bytes) (pos : Nat) :
    pos ≤ consume_line_pos src pos := consume_line_aux_ge _ _

theorem consume_line_pos_le (src : Bytes) (pos : Nat) (h : pos ≤ src.length) :
    consume_line_pos src pos ≤ src.length := by
  have := consume_line_aux_le (src.drop pos) pos
  rw [List.length_drop] at this
  unfold consume_line_pos
  omega

theorem skip_blank_lines_aux_ge (src : Bytes) : ∀ (fuel pos : Nat),
    pos ≤ skip_blank_lines_aux src fuel pos := by
  intro fuel
  induction fuel with
  | zero => intro pos; exact Nat.le_refl _
  | succ f ih =>
    intro pos
    rw [skip_blank_lines_aux]
    split
    · exact Nat.le_refl _
    · dsimp only
      split
      · exact Nat.le_trans (Nat.le_trans (skip_whitespace_ge src pos) (Nat.le_succ _))
          (ih _)
      · exact Nat.le_refl _

theorem skip_blank_lines_aux_le (src : Bytes) : ∀ (fuel pos : Nat),
    pos ≤ src.length → skip_blank_lines_aux src fuel pos ≤ src.length := by
  intro fuel
  induction fuel with
  | zero => intro pos h; exact h
  | succ f ih =>
    intro pos h
    rw [skip_blank_lines_aux]
    split
    · exact h
    · dsimp only
      split
      · rename_i hpk
        apply ih
        have hlt : skip_whitespace src pos < src.length := by
          by_contra hge
          have : peekB src (skip_whitespace src pos) = none := by
            unfold peekB
            exact List.get?_len_le (by omega)
          rw [this] at hpk
          simp at hpk
        omega
      · exact h

theorem skip_blank_lines_ge (src : Bytes) (pos : Nat) :
    pos ≤ skip_blank_lines src pos := skip_blank_lines_aux_ge _ _ _

theorem skip_blank_lines_le (src : Bytes) (pos : Nat) (h : pos ≤ src.length) :
    skip_blank_lines src pos ≤ src.length := skip_blank_lines_aux_le _ _ _ h

theorem scan_text_aux_ge (l : Bytes) : ∀ (pos : Nat), pos ≤ scan_text_aux l pos := by
  induction l with
  | nil => intro pos; exact Nat.le_refl _
  | cons b t ih =>
    intro pos
    rw [scan_text_aux]
    split
    · exact Nat.le_refl _
    · exact Nat.le_trans (Nat.le_succ _) (ih (pos + 1))

theorem scan_text_aux_le (l : Bytes) : ∀ (pos : Nat), scan_text_aux l pos ≤ pos + l.length := by
  induction l with
  | nil => intro pos; simp [scan_text_aux]
  | cons b t ih =>
    intro pos
    rw [scan_text_aux]
    split
    · simp
    · exact Nat.le_trans (ih (pos + 1)) (by simp; omega)

theorem scan_text_ge (content : Bytes) (pos : Nat) : pos ≤ scan_text content pos :=
  scan_text_aux_ge _ _

theorem scan_text_le (content : Bytes) (pos : Nat) (h : pos ≤ content.length) :
    scan_text content pos ≤ content.length := by
  have := scan_text_aux_le (content.drop pos) pos
  rw [List.length_drop] at this
  unfold scan_text
  omega

theorem code_scan_aux_ge (l : Bytes) : ∀ (pos : Nat), pos ≤ code_scan_aux l pos := by
  induction l with
  | nil => intro pos; exact Nat.le_refl _
  | cons b t ih =>
    intro pos
    rw [code_scan_aux]
    split
    · exact Nat.le_refl _
    · exact Nat.le_trans (Nat.le_succ _) (ih (pos + 1))

theorem code_scan_aux_le (l : Bytes) : ∀ (pos : Nat), code_scan_aux l pos ≤ pos + l.length := by
  induction l with
  | nil => intro pos; simp [code_scan_aux]
  | cons b t ih =>
    intro pos
    rw [code_scan_aux]
    split
    · simp
    · exact Nat.le_trans (ih (pos + 1)) (by simp; omega)

theorem code_scan_ge (content : Bytes) (pos : Nat) : pos ≤ code_scan content pos :=
  code_scan_aux_ge _ _

theorem code_scan_le (content : Bytes) (pos : Nat) (h : pos ≤ content.length) :
    code_scan content pos ≤ content.length := by
  have := code_scan_aux_le (content.drop pos) pos
  rw [List.length_drop] at this
  unfold code_scan
  omega

theorem bracket_scan_aux_ge (l : Bytes) : ∀ (pos depth : Nat),
    pos ≤ bracket_scan_aux l pos depth := by
  induction l with
  | nil => intro pos depth; exact Nat.le_refl _
  | cons b t ih =>
    intro pos depth
    rw [bracket_scan_aux]
    repeat' split
    all_goals first
      | exact Nat.le_refl _
      | exact Nat.le_trans (Nat.le_succ _) (ih (pos + 1) _)

theorem bracket_scan_aux_le (l : Bytes) : ∀ (pos depth : Nat),
    bracket_scan_aux l pos depth ≤ pos + l.length := by
  induction l with
  | nil => intro pos depth; simp [bracket_scan_aux]
  | cons b t ih =>
    intro pos depth
    rw [bracket_scan_aux]
    simp only [List.length_cons]
    repeat' split
    all_goals first
      | omega
      | exact Nat.le_trans (ih (pos + 1) _) (by omega)

theorem bracket_scan_ge (content : Bytes) (pos depth : Nat) :
    pos ≤ bracket_scan content pos depth := bracket_scan_aux_ge _ _ _

theorem bracket_scan_le (content : Bytes) (pos depth : Nat) (h : pos ≤ content.length) :
    bracket_scan content pos depth ≤ content.length := by
  have := bracket_scan_aux_le (content.drop pos) pos depth
  rw [List.length_drop] at this
  unfold bracket_scan
  omega

theorem paren_scan_aux_ge (l : Bytes) : ∀ (pos depth : Nat),
    pos ≤ paren_scan_aux l pos depth := by
  induction l with
  | nil => intro pos depth; exact Nat.le_refl _
  | cons b t ih =>
    intro pos depth
    rw [paren_scan_aux]
    repeat' split
    all_goals first
      | exact Nat.le_refl _
      | exact Nat.le_trans (Nat.le_succ _) (ih (pos + 1) _)

theorem paren_scan_aux_le (l : Bytes) : ∀ (pos depth : Nat),
    paren_scan_aux l pos depth ≤ pos + l.length := by
  induction l with
  | nil => intro pos depth; simp [paren_scan_aux]
  | cons b t ih =>
    intro pos depth
    rw [paren_scan_aux]
    simp only [List.length_cons]
    repeat' split
    all_goals first
      | omega
      | exact Nat.le_trans (ih (pos + 1) _) (by omega)

theorem paren_scan_ge (content : Bytes) (pos depth : Nat) :
    pos ≤ paren_scan content pos depth := paren_scan_aux_ge _ _ _

theorem paren_scan_le (content : Bytes) (pos depth : Nat) (h : pos ≤ content.length) :
    paren_scan content pos depth ≤ content.length := by
  have := paren_scan_aux_le (content.drop pos) pos depth
  rw [List.length_drop] at this
  unfold paren_scan
  omega

theorem runLen_le (bs : Bytes) (pos marker : Nat) (h : pos ≤ bs.length) :
    pos + runLen bs pos marker ≤ bs.length := by
  unfold runLen
  have h1 : ((bs.drop pos).takeWhile (· == marker)).length ≤ (bs.drop pos).length := by
    induction (bs.drop pos) with
    | nil => simp
    | cons b t ih =>
      rw [List.takeWhile_cons]
      split
      · simpa using ih
      · simp
  rw [List.length_drop] at h1
  omega

theorem emph_scan_ge (content : Bytes) (marker count : Nat) : ∀ (fuel i : Nat),
    i ≤ (emph_scan content marker count fuel i).2 := by
  intro fuel
  induction fuel with
  | zero => intro i; exact Nat.le_refl _
  | succ f ih =>
    intro i
    rw [emph_scan]
    split
    · exact Nat.le_refl _
    · split
      · dsimp only
        split
        · exact Nat.le_refl _
        · exact Nat.le_trans (Nat.le_add_right _ _) (ih _)
      · exact Nat.le_trans (Nat.le_succ _) (ih _)

theorem emph_scan_found (content : Bytes) (marker count : Nat) : ∀ (fuel i j : Nat),
    emph_scan content marker count fuel i = (true, j) →
    j < content.length ∧ count ≤ runLen content j marker := by
  intro fuel
  induction fuel with
  | zero => intro i j h; rw [emph_scan] at h; simp at h
  | succ f ih =>
    intro i j h
    rw [emph_scan] at h
    split at h
    · simp at h
    · split at h
      · dsimp only at h
        split at h
        · rename_i hlen hm hc
          simp at h
          subst h
          exact ⟨by omega, hc⟩
        · exact ih _ _ h
      · exact ih _ _ h

theorem length_takeWhile_le' (p : Nat → Bool) (l : Bytes) :
    (l.takeWhile p).length ≤ l.length := by
  induction l with
  | nil => simp
  | cons b t ih =>
    rw [List.takeWhile_cons]
    split
    · simpa using ih
    · simp

theorem length_dropWhile_le' (p : Nat → Bool) (l : Bytes) :
    (l.dropWhile p).length ≤ l.length := by
  induction l with
  | nil => simp
  | cons b t ih =>
    rw [List.dropWhile_cons]
    split
    · simp; omega
    · simp

theorem trimStartB_length_le (bs : Bytes) : (trimStartB bs).length ≤ bs.length :=
  length_dropWhile_le' _ _

theorem trimEndB_length_le (bs : Bytes) : (trimEndB bs).length ≤ bs.length := by
  unfold trimEndB
  rw [List.length_reverse]
  exact Nat.le_trans (length_dropWhile_le' _ _) (by rw [List.length_reverse])

theorem trimB_length_le (bs : Bytes) : (trimB bs).length ≤ bs.length :=
  Nat.le_trans (trimEndB_length_le _) (trimStartB_length_le _)

theorem trimEndMatchesB_length_le (b : Nat) (bs : Bytes) :
    (trimEndMatchesB b bs).length ≤ bs.length := by
  unfold trimEndMatchesB
  rw [List.length_reverse]
  exact Nat.le_trans (length_dropWhile_le' _ _) (by rw [List.length_reverse])

theorem stripOneCr_length_le (bs : Bytes) : (stripOneCr bs).length ≤ bs.length := by
  unfold stripOneCr
  split
  · rw [List.length_dropLast]; omega
  · exact Nat.le_refl _

theorem firstLineB_length_le (bs : Bytes) : (firstLineB bs).length ≤ bs.length := by
  unfold firstLineB
  dsimp only
  split
  · exact Nat.le_trans (stripOneCr_length_le _) (length_takeWhile_le' _ _)
  · exact length_takeWhile_le' _ _

theorem sliceL_length_le (bs : Bytes) (a b : Nat) : (sliceL bs a b).length ≤ b - a := by
  unfold sliceL
  exact Nat.le_trans (List.length_take_le _ _) (Nat.le_refl _)

theorem sliceL_length_le_sub (bs : Bytes) (a b : Nat) :
    (sliceL bs a b).length ≤ bs.length - a := by
  unfold sliceL
  have h := List.length_take_le (b - a) (bs.drop a)
  have h2 : (bs.drop a).length = bs.length - a := List.length_drop _ _
  have h3 := List.length_take (b - a) (bs.drop a)
  rw [h3, h2]
  omega

theorem splitOnByte_aux_mem_length (b : Nat) : ∀ (l cur s : Bytes),
    s ∈ splitOnByte_aux b l cur → s.length ≤ cur.length + l.length := by
  intro l
  induction l with
  | nil =>
    intro cur s hs
    rw [splitOnByte_aux] at hs
    rcases List.mem_singleton.mp hs with h
    rw [h, List.length_reverse]
    simp
  | cons x t ih =>
    intro cur s hs
    rw [splitOnByte_aux] at hs
    split at hs
    · rcases List.mem_cons.mp hs with h | h
      · rw [h, List.length_reverse]; simp
      · have := ih [] s h
        simp at this
        simp
        omega
    · have := ih (x :: cur) s hs
      simp at this ⊢
      omega

theorem splitOnByte_mem_length (b : Nat) (l s : Bytes) (hs : s ∈ splitOnByte b l) :
    s.length ≤ l.length := by
  have := splitOnByte_aux_mem_length b l [] s hs
  simpa using this

theorem parse_table_row_cells_length (line c : Bytes)
    (hc : c ∈ parse_table_row_cells line) : c.length ≤ line.length := by
  unfold parse_table_row_cells at hc
  dsimp only at hc
  rcases List.mem_map.mp hc with ⟨s, hs, hcs⟩
  subst hcs
  apply Nat.le_trans (trimB_length_le s)
  apply Nat.le_trans (splitOnByte_mem_length 124 _ s hs)
  have h1 : ∀ (t : Bytes), (if t.getLast? == some 124 then t.dropLast else t).length ≤ t.length := by
    intro t
    split
    · rw [List.length_dropLast]; omega
    · exact Nat.le_refl _
  have h2 : ∀ (t : Bytes), (match t with | 124 :: rest => rest | other => other : Bytes).length ≤ t.length := by
    intro t
    split
    · simp only [List.length_cons]; omega
    · exact Nat.le_refl _
  exact Nat.le_trans (h1 _) (Nat.le_trans (h2 _) (trimB_length_le line))

theorem good_mk (L : Nat) (n : Node) (h1 : (nodeSpan n).start ≤ (nodeSpan n).stop)
    (h2 : (nodeSpan n).stop ≤ L) (h3 : allowedKind n = true)
    (hch : ∀ c ∈ nodeChildren n, GoodNode L c) : GoodNode L n :=
  ⟨SpanOkNode.mk n h1 h2 (fun c hc => (hch c hc).1),
   ProducedNode.mk n h3 (fun c hc => (hch c hc).2)⟩

theorem good_append (L : Nat) (acc : List Node) (n : Node)
    (ha : ∀ x ∈ acc, GoodNode L x) (hn : GoodNode L n) :
    ∀ x ∈ acc ++ [n], GoodNode L x := by
  intro x hx
  rcases List.mem_append.mp hx with h | h
  · exact ha x h
  · rw [List.mem_singleton.mp h]
    exact hn

theorem prBind_eq_ok {α β : Type} {e : PR α} {f : α → PR β} {b : β}
    (h : prBind e f = PR.ok b) : ∃ a, e = PR.ok a ∧ f a = PR.ok b := by
  cases e with
  | ok a => exact ⟨a, rfl, h⟩
  | err s m => simp [prBind] at h
  | panicked => simp [prBind] at h
  | fuelOut => simp [prBind] at h

theorem good_text (L : Nat) (v : Bytes) (a b : Nat) (h1 : a ≤ b) (h2 : b ≤ L) :
    GoodNode L (Node.text v ⟨a, b⟩) :=
  good_mk L _ h1 h2 rfl (by intro c hc; simp [nodeChildren] at hc)

set_option maxHeartbeats 1000000 in
theorem parse_inline_go_good : ∀ (fuel : Nat) (content : Bytes) (offset pos : Nat)
    (acc res : List Node) (B : Nat),
    offset + content.length ≤ B →
    (∀ x ∈ acc, GoodNode B x) →
    parse_inline_go fuel content offset pos acc = PR.ok res →
    ∀ x ∈ res, GoodNode B x := by
  intro fuel
  induction fuel with
  | zero => intro content offset pos acc res B hB hacc h; rw [parse_inline_go] at h; simp at h
  | succ f ih =>
    intro content offset pos acc res B hB hacc h
    rw [parse_inline_go] at h
    split at h
    · cases h; exact hacc
    · rename_i hpos
      have hq1 : pos ≤ scan_text content pos := scan_text_ge _ _
      have hq2 : scan_text content pos ≤ content.length := scan_text_le _ _ (by omega)
      generalize hqe : scan_text content pos = q at h hq1 hq2
      dsimp only at h
      have hacc2 : ∀ x ∈ (if pos < q then acc ++ [Node.text (sliceL content pos q)
          ⟨offset + pos, offset + q⟩] else acc), GoodNode B x := by
        split
        · exact good_append B acc _ hacc (good_text B _ _ _ (by omega) (by omega))
        · exact hacc
      generalize hae : (if pos < q then acc ++ [Node.text (sliceL content pos q)
          ⟨offset + pos, offset + q⟩] else acc) = acc2 at h hacc2
      split at h
      · cases h; exact hacc2
      · rename_i hq3
        have hrl : q + runLen content q ((content.get? q).getD 0) ≤ content.length :=
          runLen_le _ _ _ (by omega)
        generalize hce : (content.get? q).getD 0 = c at h hrl
        generalize hke : runLen content q c = k at h hrl
        split at h
        · -- backslash branch
          split at h
          · -- room
            split at h
            · -- boundary fine: recursion
              rename_i hroom hbnd
              exact ih _ _ _ _ _ _ hB
                (good_append B acc2 _ hacc2 (good_text B _ _ _ (by omega) (by omega))) h
            · simp at h
          · -- no room: one_char_text
            exact ih _ _ _ _ _ _ hB
              (good_append B acc2 _ hacc2 (by
                unfold one_char_text
                exact good_text B _ _ _ (by omega) (by omega))) h
        · split at h
          · -- emphasis
            split at h
            · -- found
              rename_i hmk inner_end heq
              have hge := emph_scan_ge content c k (content.length + 1) (q + k)
              rw [heq] at hge
              simp at hge
              obtain ⟨hjlt, hkrun⟩ :=
                emph_scan_found content c k (content.length + 1) (q + k) inner_end heq
              have hrun2 : inner_end + runLen content inner_end c ≤ content.length :=
                runLen_le _ _ _ (by omega)
              obtain ⟨inner, hinner, hrest⟩ := prBind_eq_ok h
              have hbound2 : (offset + (q + k)) + (sliceL content (q + k) inner_end).length
                  ≤ B := by
                have := sliceL_length_le content (q + k) inner_end
                omega
              have hinner_good := ih (sliceL content (q + k) inner_end) (offset + (q + k))
                0 [] inner B hbound2 (by intro x hx; simp at hx) hinner
              have hnd : GoodNode B (if 2 ≤ k then
                  Node.strong inner ⟨offset + q, offset + inner_end + k⟩
                  else Node.emphasis inner ⟨offset + q, offset + inner_end + k⟩) := by
                split
                · refine good_mk B _ ?_ ?_ rfl ?_
                  · show offset + q ≤ offset + inner_end + k
                    omega
                  · show offset + inner_end + k ≤ B
                    omega
                  · intro cc hcc
                    exact hinner_good cc hcc
                · refine good_mk B _ ?_ ?_ rfl ?_
                  · show offset + q ≤ offset + inner_end + k
                    omega
                  · show offset + inner_end + k ≤ B
                    omega
                  · intro cc hcc
                    exact hinner_good cc hcc
              exact ih content offset (inner_end + k) _ res B hB
                (good_append B acc2 _ hacc2 hnd) hrest
            · -- not found
              exact ih _ _ _ _ _ _ hB
                (good_append B acc2 _ hacc2 (good_text B _ _ _ (by omega) (by omega))) h
          · split at h
            · -- backtick
              split at h
              · -- closed
                rename_i hplen
                have hp1 : q + 1 ≤ code_scan content (q + 1) := code_scan_ge _ _
                refine ih _ _ _ _ _ _ hB (good_append B acc2 _ hacc2 ?_) h
                refine good_mk B _ ?_ ?_ rfl ?_
                · show offset + (q + 1) - 1 ≤ offset + code_scan content (q + 1) + 1
                  omega
                · show offset + code_scan content (q + 1) + 1 ≤ B
                  omega
                · intro cc hcc
                  simp [nodeChildren] at hcc
              · -- unclosed
                rename_i hplen
                refine ih _ _ _ _ _ _ hB (good_append B acc2 _ hacc2 ?_) h
                exact good_text B _ _ _ (by omega) (by omega)
            · split at h
              · -- link
                split at h
                · -- valid bracket
                  rename_i hcond
                  obtain ⟨hplt, hp93, hp1lt, hp40⟩ := hcond
                  have hbp : q + 1 ≤ bracket_scan content (q + 1) 1 := bracket_scan_ge _ _ _
                  have hpp : bracket_scan content (q + 1) 1 + 2 ≤ content.length := by
                    omega
                  split at h
                  · -- valid paren
                    rename_i hcond2
                    obtain ⟨hp2lt, hp41⟩ := hcond2
                    have hpg : bracket_scan content (q + 1) 1 + 2
                        ≤ paren_scan content (bracket_scan content (q + 1) 1 + 2) 1 :=
                      paren_scan_ge _ _ _
                    obtain ⟨ltext, hlt, hrest⟩ := prBind_eq_ok h
                    have hbound2 : (offset + (q + 1))
                        + (sliceL content (q + 1) (bracket_scan content (q + 1) 1)).length
                        ≤ B := by
                      have := sliceL_length_le content (q + 1) (bracket_scan content (q + 1) 1)
                      omega
                    have hlt_good := ih _ _ 0 [] ltext B hbound2
                      (by intro x hx; simp at hx) hlt
                    refine ih content offset _ _ res B hB
                      (good_append B acc2 _ hacc2 ?_) hrest
                    refine good_mk B _ ?_ ?_ rfl ?_
                    · show offset + q ≤ offset
                        + paren_scan content (bracket_scan content (q + 1) 1 + 2) 1 + 1
                      omega
                    · show offset
                        + paren_scan content (bracket_scan content (q + 1) 1 + 2) 1 + 1 ≤ B
                      omega
                    · intro cc hcc
                      exact hlt_good cc hcc
                  · -- invalid paren
                    rename_i hcond2
                    have hpg : bracket_scan content (q + 1) 1 + 2
                        ≤ paren_scan content (bracket_scan content (q + 1) 1 + 2) 1 :=
                      paren_scan_ge _ _ _
                    have hple : paren_scan content (bracket_scan content (q + 1) 1 + 2) 1
                        ≤ content.length := paren_scan_le _ _ _ hpp
                    refine ih _ _ _ _ _ _ hB (good_append B acc2 _ hacc2 ?_) h
                    exact good_text B _ _ _ (by omega) (by omega)
                · -- not a link
                  exact ih _ _ _ _ _ _ hB
                    (good_append B acc2 _ hacc2 (good_text B _ _ _ (by omega) (by omega))) h
              · -- default
                exact ih _ _ _ _ _ _ hB
                  (good_append B acc2 _ hacc2 (by
                    unfold one_char_text
                    exact good_text B _ _ _ (by omega) (by omega))) h

theorem parse_inline_good (content : Bytes) (offset : Nat) (res : List Node) (B : Nat)
    (hB : offset + content.length ≤ B) (h : parse_inline content offset = PR.ok res) :
    ∀ x ∈ res, GoodNode B x :=
  parse_inline_go_good _ _ _ _ _ _ _ hB (by intro x hx; simp at hx) h

theorem parse_heading_good (src : Bytes) (start : Nat) (o : Option Node) (pos2 : Nat)
    (hs : start ≤ src.length) (h : parse_heading src start = PR.ok (o, pos2)) :
    (∀ n, o = some n → GoodNode src.length n) ∧ start ≤ pos2 ∧ pos2 ≤ src.length := by
  unfold parse_heading at h
  dsimp only at h
  obtain ⟨children, hch, hok⟩ := prBind_eq_ok h
  have hd : start ≤ start + runLen src start 35 := Nat.le_add_right _ _
  have hdl : start + runLen src start 35 ≤ src.length := runLen_le _ _ _ hs
  have hsw1 : start + runLen src start 35
      ≤ skip_whitespace src (start + runLen src start 35) := skip_whitespace_ge _ _
  have hsw2 : skip_whitespace src (start + runLen src start 35) ≤ src.length :=
    skip_whitespace_le _ _ hdl
  have hsc1 := scan_to_nl_ge src (skip_whitespace src (start + runLen src start 35))
  have hsc2 := scan_to_nl_le src (skip_whitespace src (start + runLen src start 35)) hsw2
  have hpos2 : start ≤ (if peekB src
        (scan_to_nl src (skip_whitespace src (start + runLen src start 35))) == some 10
      then scan_to_nl src (skip_whitespace src (start + runLen src start 35)) + 1
      else scan_to_nl src (skip_whitespace src (start + runLen src start 35)))
      ∧ (if peekB src
        (scan_to_nl src (skip_whitespace src (start + runLen src start 35))) == some 10
      then scan_to_nl src (skip_whitespace src (start + runLen src start 35)) + 1
      else scan_to_nl src (skip_whitespace src (start + runLen src start 35)))
      ≤ src.length := by
    split
    · rename_i hpk
      constructor
      · omega
      · have : scan_to_nl src (skip_whitespace src (start + runLen src start 35))
            < src.length := by
          by_contra hge
          have he : peekB src (scan_to_nl src
              (skip_whitespace src (start + runLen src start 35))) = none := by
            unfold peekB
            exact List.get?_len_le (by omega)
          rw [he] at hpk
          simp at hpk
        omega
    · exact ⟨by omega, by omega⟩
  cases hok
  refine ⟨?_, hpos2.1, hpos2.2⟩
  intro n hn
  cases hn
  refine good_mk _ _ ?_ ?_ rfl ?_
  · show start ≤ _
    exact hpos2.1
  · exact hpos2.2
  · intro cc hcc
    show GoodNode src.length cc
    have hchgood : ∀ x ∈ children, GoodNode src.length x := by
      split at hch
      · cases hch
        intro x hx
        simp at hx
      · apply parse_inline_good _ _ _ _ _ hch
        have h1 := trimEndB_length_le (trimEndMatchesB 35 (trimEndB (sliceL src
          (skip_whitespace src (start + runLen src start 35))
          (scan_to_nl src (skip_whitespace src (start + runLen src start 35))))))
        have h2 := trimEndMatchesB_length_le 35 (trimEndB (sliceL src
          (skip_whitespace src (start + runLen src start 35))
          (scan_to_nl src (skip_whitespace src (start + runLen src start 35)))))
        have h3 := trimEndB_length_le (sliceL src
          (skip_whitespace src (start + runLen src start 35))
          (scan_to_nl src (skip_whitespace src (start + runLen src start 35))))
        have h4 := sliceL_length_le src
          (skip_whitespace src (start + runLen src start 35))
          (scan_to_nl src (skip_whitespace src (start + runLen src start 35)))
        omega
    exact hchgood cc hcc

theorem parse_thematic_break_good (src : Bytes) (start : Nat) (o : Option Node) (pos2 : Nat)
    (hs : start ≤ src.length) (h : parse_thematic_break src start = PR.ok (o, pos2)) :
    (∀ n, o = some n → GoodNode src.length n) ∧ start ≤ pos2 ∧ pos2 ≤ src.length := by
  unfold parse_thematic_break at h
  cases h
  refine ⟨?_, consume_line_pos_ge _ _, consume_line_pos_le _ _ hs⟩
  intro n hn
  cases hn
  refine good_mk _ _ ?_ ?_ rfl ?_
  · exact consume_line_pos_ge _ _
  · exact consume_line_pos_le _ _ hs
  · intro cc hcc
    simp [nodeChildren] at hcc

theorem fenced_body_aux_bounds (src : Bytes) (fc fl : Nat) : ∀ (fuel pos ce : Nat),
    pos ≤ src.length →
    pos ≤ (fenced_body_aux src fc fl fuel pos ce).2
      ∧ (fenced_body_aux src fc fl fuel pos ce).2 ≤ src.length := by
  intro fuel
  induction fuel with
  | zero => intro pos ce h; exact ⟨Nat.le_refl _, h⟩
  | succ f ih =>
    intro pos ce h
    rw [fenced_body_aux]
    split
    · exact ⟨Nat.le_refl _, h⟩
    · dsimp only
      split
      · constructor
        · exact Nat.le_trans (Nat.le_add_right _ _) (consume_line_pos_ge _ _)
        · exact consume_line_pos_le _ _ (runLen_le _ _ _ h)
      · have h1 : pos ≤ consume_line_pos src pos := consume_line_pos_ge _ _
        have h2 : consume_line_pos src pos ≤ src.length := consume_line_pos_le _ _ h
        have := ih (consume_line_pos src pos) (consume_line_pos src pos) h2
        exact ⟨Nat.le_trans h1 this.1, this.2⟩

theorem parse_fenced_code_good (src : Bytes) (start : Nat) (o : Option Node) (pos2 : Nat)
    (hs : start ≤ src.length) (h : parse_fenced_code src start = PR.ok (o, pos2)) :
    (∀ n, o = some n → GoodNode src.length n) ∧ start ≤ pos2 ∧ pos2 ≤ src.length := by
  unfold parse_fenced_code at h
  dsimp only at h
  have hfl : start + runLen src start ((peekB src start).getD 0) ≤ src.length :=
    runLen_le _ _ _ hs
  have hsw1 := skip_whitespace_ge src (start + runLen src start ((peekB src start).getD 0))
  have hsw2 := skip_whitespace_le src (start + runLen src start ((peekB src start).getD 0)) hfl
  have hsc1 := scan_to_nl_ge src
    (skip_whitespace src (start + runLen src start ((peekB src start).getD 0)))
  have hsc2 := scan_to_nl_le src
    (skip_whitespace src (start + runLen src start ((peekB src start).getD 0))) hsw2
  set s1 := scan_to_nl src
    (skip_whitespace src (start + runLen src start ((peekB src start).getD 0)))
  have hcs : (if peekB src s1 == some 10 then s1 + 1 else s1) ≤ src.length
      ∧ s1 ≤ (if peekB src s1 == some 10 then s1 + 1 else s1) := by
    split
    · rename_i hpk
      constructor
      · have : s1 < src.length := by
          by_contra hge
          have he : peekB src s1 = none := by
            unfold peekB
            exact List.get?_len_le (by omega)
          rw [he] at hpk
          simp at hpk
        omega
      · omega
    · exact ⟨by omega, Nat.le_refl _⟩
  have hb := fenced_body_aux_bounds src ((peekB src start).getD 0)
    (runLen src start ((peekB src start).getD 0)) (src.length + 1)
    (if peekB src s1 == some 10 then s1 + 1 else s1)
    (if peekB src s1 == some 10 then s1 + 1 else s1) hcs.1
  revert h
  split
  all_goals
    (intro h
     cases h
     refine ⟨?_, by omega, by omega⟩
     intro n hn
     cases hn
     refine good_mk _ _ ?_ ?_ rfl ?_
     · simp only [nodeSpan]
       omega
     · simp only [nodeSpan]
       omega
     · intro cc hcc
       simp [nodeChildren] at hcc)

theorem consume_line_length (src : Bytes) (pos : Nat) (hs : pos ≤ src.length) :
    (consume_line src pos).1.length ≤ src.length
      ∧ pos ≤ (consume_line src pos).2 ∧ (consume_line src pos).2 ≤ src.length := by
  unfold consume_line
  dsimp only
  refine ⟨?_, consume_line_pos_ge _ _, consume_line_pos_le _ _ hs⟩
  apply Nat.le_trans (trimEndMatchesB_length_le 10 _)
  apply Nat.le_trans (sliceL_length_le_sub src pos _)
  omega

theorem table_body_aux_bounds (src : Bytes) : ∀ (fuel pos : Nat)
    (rows : List (List Bytes)),
    pos ≤ src.length →
    (∀ r ∈ rows, ∀ c ∈ r, c.length ≤ src.length) →
    pos ≤ (table_body_aux src fuel pos rows).2
      ∧ (table_body_aux src fuel pos rows).2 ≤ src.length
      ∧ (∀ r ∈ (table_body_aux src fuel pos rows).1, ∀ c ∈ r, c.length ≤ src.length) := by
  intro fuel
  induction fuel with
  | zero => intro pos rows h hr; exact ⟨Nat.le_refl _, h, hr⟩
  | succ f ih =>
    intro pos rows h hr
    rw [table_body_aux]
    split
    · exact ⟨Nat.le_refl _, h, hr⟩
    · dsimp only
      split
      · exact ⟨Nat.le_refl _, h, hr⟩
      · split
        · exact ⟨Nat.le_refl _, h, hr⟩
        · have hcl := consume_line_length src pos h
          have hrows2 : ∀ r ∈ rows ++ [parse_table_row_cells (consume_line src pos).1],
              ∀ c ∈ r, c.length ≤ src.length := by
            intro r hrr c hc
            rcases List.mem_append.mp hrr with h2 | h2
            · exact hr r h2 c hc
            · rw [List.mem_singleton.mp h2] at hc
              exact Nat.le_trans (parse_table_row_cells_length _ c hc) hcl.1
          have := ih (consume_line src pos).2 _ hcl.2.2 hrows2
          exact ⟨Nat.le_trans hcl.2.1 this.1, this.2.1, this.2.2⟩

theorem build_cells_good (L : Nat) : ∀ (cs : List Bytes) (ns : List Node),
    (∀ c ∈ cs, c.length ≤ L) → build_cells cs = PR.ok ns →
    ∀ n ∈ ns, GoodNode L n := by
  intro cs
  induction cs with
  | nil =>
    intro ns hl h
    rw [build_cells] at h
    cases h
    intro n hn
    simp at hn
  | cons c rest ih =>
    intro ns hl h
    rw [build_cells] at h
    obtain ⟨ch, hch, h2⟩ := prBind_eq_ok h
    obtain ⟨cstail, hcs, h3⟩ := prBind_eq_ok h2
    cases h3
    intro n hn
    rcases List.mem_cons.mp hn with h4 | h4
    · subst h4
      refine good_mk _ _ ?_ ?_ rfl ?_
      · exact Nat.le_refl _
      · exact Nat.zero_le _
      · intro cc hcc
        exact parse_inline_good c 0 ch L
          (by simpa using hl c (List.mem_cons_self c rest)) hch cc hcc
    · exact ih cstail (fun x hx => hl x (List.mem_cons_of_mem c hx)) hcs n h4

theorem build_rows_good (L : Nat) : ∀ (rs : List (List Bytes)) (ns : List Node),
    (∀ r ∈ rs, ∀ c ∈ r, c.length ≤ L) → build_rows rs = PR.ok ns →
    ∀ n ∈ ns, GoodNode L n := by
  intro rs
  induction rs with
  | nil =>
    intro ns hl h
    rw [build_rows] at h
    cases h
    intro n hn
    simp at hn
  | cons r rest ih =>
    intro ns hl h
    rw [build_rows] at h
    obtain ⟨cells, hcells, h2⟩ := prBind_eq_ok h
    obtain ⟨rstail, hrs, h3⟩ := prBind_eq_ok h2
    cases h3
    intro n hn
    rcases List.mem_cons.mp hn with h4 | h4
    · subst h4
      refine good_mk _ _ ?_ ?_ rfl ?_
      · exact Nat.le_refl _
      · exact Nat.zero_le _
      · intro cc hcc
        exact build_cells_good L r cells (hl r (List.mem_cons_self r rest)) hcells cc hcc
    · exact ih rstail (fun x hx => hl x (List.mem_cons_of_mem r hx)) hrs n h4

theorem parse_table_good (src : Bytes) (start : Nat) (o : Option Node) (pos2 : Nat)
    (hs : start ≤ src.length) (h : parse_table src start = PR.ok (o, pos2)) :
    (∀ n, o = some n → GoodNode src.length n) ∧ start ≤ pos2 ∧ pos2 ≤ src.length := by
  unfold parse_table at h
  dsimp only at h
  obtain ⟨children, hch, hok⟩ := prBind_eq_ok h
  have hc1 := consume_line_length src start hs
  have hc2 := consume_line_length src (consume_line src start).2 hc1.2.2
  have hrows0 : ∀ r ∈ [parse_table_row_cells (consume_line src start).1],
      ∀ c ∈ r, c.length ≤ src.length := by
    intro r hr c hc
    rw [List.mem_singleton.mp hr] at hc
    exact Nat.le_trans (parse_table_row_cells_length _ c hc) hc1.1
  have hb := table_body_aux_bounds src (src.length + 1)
    (consume_line src (consume_line src start).2).2
    [parse_table_row_cells (consume_line src start).1] hc2.2.2 hrows0
  cases hok
  refine ⟨?_, by omega, by omega⟩
  intro n hn
  cases hn
  refine good_mk _ _ ?_ ?_ rfl ?_
  · simp only [nodeSpan]
    omega
  · simp only [nodeSpan]
    omega
  · intro cc hcc
    exact build_rows_good src.length _ children hb.2.2 hch cc hcc

theorem list_item_content_length (opts : ParserOptions) (trimmed : Bytes) (ordered : Bool)
    (content : Bytes) (checked : Option Bool)
    (h : list_item_content opts trimmed ordered = (true, content, checked)) :
    content.length ≤ trimmed.length := by
  unfold list_item_content at h
  split at h
  · dsimp only at h
    split at h
    · split at h
      · simp at h
        rcases h with ⟨h1, h2⟩
        subst h1
        split
        · simp only [List.length_drop]
          omega
        · simp
      · split at h
        · simp at h
          rcases h with ⟨h1, h2⟩
          subst h1
          split
          · simp only [List.length_drop]
            omega
          · simp
        · simp at h
          rcases h with ⟨h1, h2⟩
          subst h1
          simp only [List.length_drop]
          omega
    · simp at h
      rcases h with ⟨h1, h2⟩
      subst h1
      simp only [List.length_drop]
      omega
  · split at h
    · dsimp only at h
      split at h
      · simp at h
      · split at h
        · rename_i c2 rest heq
          split at h
          · simp at h
            rcases h with ⟨h1, h2⟩
            subst h1
            have hlen : rest.length + 1 ≤ trimmed.length := by
              have hq := congrArg List.length heq
              simp only [List.length_drop, List.length_cons] at hq
              omega
            have htail : rest.tail.length ≤ rest.length := by
              cases rest <;> simp
            omega
          · simp at h
        · simp at h
    · simp at h

theorem good_listItem_fields (L : Nat) (c : Option Bool) (s : Bool) (ch : List Node)
    (sp : Span) (h : GoodNode L (Node.listItem c s ch sp)) :
    sp.start ≤ sp.stop ∧ sp.stop ≤ L ∧ ∀ x ∈ ch, GoodNode L x := by
  obtain ⟨hs, hp⟩ := h
  cases hs with
  | mk _ h1 h2 h3 =>
    cases hp with
    | mk _ g1 g2 =>
      exact ⟨h1, h2, fun x hx => ⟨h3 x hx, g2 x hx⟩⟩

theorem attach_to_last_good (L : Nat) : ∀ (acc : List Node) (nested : Node),
    (∀ x ∈ acc, GoodNode L x) → GoodNode L nested →
    ∀ x ∈ attach_to_last acc nested, GoodNode L x := by
  intro acc
  induction acc with
  | nil => intro nested ha hn x hx; rw [attach_to_last] at hx; simp at hx
  | cons a rest ih =>
    intro nested ha hn x hx
    cases rest with
    | nil =>
      cases a with
      | listItem c s ch sp =>
        rw [attach_to_last, List.mem_singleton] at hx
        subst hx
        have hga := ha _ (List.mem_singleton.mpr rfl)
        obtain ⟨h1, h2, h3⟩ := good_listItem_fields L c s ch sp hga
        show GoodNode L (Node.listItem c s (ch ++ [nested]) sp)
        refine good_mk _ _ h1 h2 rfl ?_
        intro cc hcc
        rcases List.mem_append.mp hcc with h4 | h4
        · exact h3 cc h4
        · rw [List.mem_singleton.mp h4]
          exact hn
      | paragraph ch sp =>
        rw [attach_to_last, List.mem_singleton] at hx
        · subst hx
          exact ha _ (List.mem_singleton.mpr rfl)
        · intro _ _ _ _ heq
          exact Node.noConfusion heq
      | heading d ch sp =>
        rw [attach_to_last, List.mem_singleton] at hx
        · subst hx
          exact ha _ (List.mem_singleton.mpr rfl)
        · intro _ _ _ _ heq
          exact Node.noConfusion heq
      | thematicBreak sp =>
        rw [attach_to_last, List.mem_singleton] at hx
        · subst hx
          exact ha _ (List.mem_singleton.mpr rfl)
        · intro _ _ _ _ heq
          exact Node.noConfusion heq
      | codeBlock l m v sp =>
        rw [attach_to_last, List.mem_singleton] at hx
        · subst hx
          exact ha _ (List.mem_singleton.mpr rfl)
        · intro _ _ _ _ heq
          exact Node.noConfusion heq
      | blockQuote ch sp =>
        rw [attach_to_last, List.mem_singleton] at hx
        · subst hx
          exact ha _ (List.mem_singleton.mpr rfl)
        · intro _ _ _ _ heq
          exact Node.noConfusion heq
      | list o st spr ch sp =>
        rw [attach_to_last, List.mem_singleton] at hx
        · subst hx
          exact ha _ (List.mem_singleton.mpr rfl)
        · intro _ _ _ _ heq
          exact Node.noConfusion heq
      | table al ch sp =>
        rw [attach_to_last, List.mem_singleton] at hx
        · subst hx
          exact ha _ (List.mem_singleton.mpr rfl)
        · intro _ _ _ _ heq
          exact Node.noConfusion heq
      | tableRow ch sp =>
        rw [attach_to_last, List.mem_singleton] at hx
        · subst hx
          exact ha _ (List.mem_singleton.mpr rfl)
        · intro _ _ _ _ heq
          exact Node.noConfusion heq
      | tableCell ch sp =>
        rw [attach_to_last, List.mem_singleton] at hx
        · subst hx
          exact ha _ (List.mem_singleton.mpr rfl)
        · intro _ _ _ _ heq
          exact Node.noConfusion heq
      | html v sp =>
        rw [attach_to_last, List.mem_singleton] at hx
        · subst hx
          exact ha _ (List.mem_singleton.mpr rfl)
        · intro _ _ _ _ heq
          exact Node.noConfusion heq
      | definition i u sp =>
        rw [attach_to_last, List.mem_singleton] at hx
        · subst hx
          exact ha _ (List.mem_singleton.mpr rfl)
        · intro _ _ _ _ heq
          exact Node.noConfusion heq
      | footnoteDefinition i ch sp =>
        rw [attach_to_last, List.mem_singleton] at hx
        · subst hx
          exact ha _ (List.mem_singleton.mpr rfl)
        · intro _ _ _ _ heq
          exact Node.noConfusion heq
      | text v sp =>
        rw [attach_to_last, List.mem_singleton] at hx
        · subst hx
          exact ha _ (List.mem_singleton.mpr rfl)
        · intro _ _ _ _ heq
          exact Node.noConfusion heq
      | emphasis ch sp =>
        rw [attach_to_last, List.mem_singleton] at hx
        · subst hx
          exact ha _ (List.mem_singleton.mpr rfl)
        · intro _ _ _ _ heq
          exact Node.noConfusion heq
      | strong ch sp =>
        rw [attach_to_last, List.mem_singleton] at hx
        · subst hx
          exact ha _ (List.mem_singleton.mpr rfl)
        · intro _ _ _ _ heq
          exact Node.noConfusion heq
      | inlineCode v sp =>
        rw [attach_to_last, List.mem_singleton] at hx
        · subst hx
          exact ha _ (List.mem_singleton.mpr rfl)
        · intro _ _ _ _ heq
          exact Node.noConfusion heq
      | link u t ch sp =>
        rw [attach_to_last, List.mem_singleton] at hx
        · subst hx
          exact ha _ (List.mem_singleton.mpr rfl)
        · intro _ _ _ _ heq
          exact Node.noConfusion heq
      | image u t al sp =>
        rw [attach_to_last, List.mem_singleton] at hx
        · subst hx
          exact ha _ (List.mem_singleton.mpr rfl)
        · intro _ _ _ _ heq
          exact Node.noConfusion heq
      | delete ch sp =>
        rw [attach_to_last, List.mem_singleton] at hx
        · subst hx
          exact ha _ (List.mem_singleton.mpr rfl)
        · intro _ _ _ _ heq
          exact Node.noConfusion heq
      | hardBreak sp =>
        rw [attach_to_last, List.mem_singleton] at hx
        · subst hx
          exact ha _ (List.mem_singleton.mpr rfl)
        · intro _ _ _ _ heq
          exact Node.noConfusion heq
      | footnoteReference i sp =>
        rw [attach_to_last, List.mem_singleton] at hx
        · subst hx
          exact ha _ (List.mem_singleton.mpr rfl)
        · intro _ _ _ _ heq
          exact Node.noConfusion heq
    | cons b rest2 =>
      rw [attach_to_last] at hx
      · rcases List.mem_cons.mp hx with h | h
        · subst h
          exact ha x (List.mem_cons_self _ _)
        · exact ih nested (fun y hy => ha y (List.mem_cons_of_mem a hy)) hn x h
      · intro heq
        exact List.noConfusion heq

theorem list_items_loop_good (opts : ParserOptions) (src : Bytes) : ∀ (fuel : Nat)
    (baseline : Nat) (ordered : Bool) (pos : Nat) (acc : List Node)
    (res : List Node × Nat),
    pos ≤ src.length →
    (∀ x ∈ acc, GoodNode src.length x) →
    list_items_loop fuel opts src baseline ordered pos acc = PR.ok res →
    (∀ x ∈ res.1, GoodNode src.length x) ∧ pos ≤ res.2 ∧ res.2 ≤ src.length := by
  intro fuel
  induction fuel with
  | zero =>
    intro baseline ordered pos acc res hp hacc h
    rw [list_items_loop] at h
    simp at h
  | succ f ih =>
    intro baseline ordered pos acc res hp hacc h
    rw [list_items_loop] at h
    dsimp only at h
    by_cases h1 : src.length ≤ pos
    · rw [if_pos h1] at h
      injection h with h
      subst h
      exact ⟨hacc, Nat.le_refl _, hp⟩
    rw [if_neg h1] at h
    by_cases h2 : (peekB src (skip_whitespace src pos) == some 10
        || decide (src.length ≤ skip_whitespace src pos)) = true
    · rw [if_pos h2] at h
      injection h with h
      subst h
      exact ⟨hacc, Nat.le_refl _, hp⟩
    rw [if_neg h2] at h
    by_cases h3 : calc_indentation src pos < baseline
    · rw [if_pos h3] at h
      injection h with h
      subst h
      exact ⟨hacc, Nat.le_refl _, hp⟩
    rw [if_neg h3] at h
    by_cases h4 : baseline < calc_indentation src pos
    · rw [if_pos h4] at h
      by_cases h5 : try_parse_list src pos = true
      · rw [if_pos h5] at h
        obtain ⟨ip, hip, hcont⟩ := prBind_eq_ok h
        have hipg := ih _ _ _ _ _ hp (fun x hx => absurd hx (List.not_mem_nil x)) hip
        have hnest : GoodNode src.length
            (Node.list (isDigitByte ((src.drop (skip_whitespace src pos)).headD 0))
              (list_start_of src (skip_whitespace src pos)
                (isDigitByte ((src.drop (skip_whitespace src pos)).headD 0)))
              false ip.1 ⟨pos, ip.2⟩) := by
          refine good_mk _ _ ?_ ?_ rfl ?_
          · exact hipg.2.1
          · exact hipg.2.2
          · intro cc hcc
            exact hipg.1 cc hcc
        have hres := ih _ _ _ _ _ hipg.2.2
          (attach_to_last_good _ _ _ hacc hnest) hcont
        exact ⟨hres.1, Nat.le_trans hipg.2.1 hres.2.1, hres.2.2⟩
      · rw [if_neg h5] at h
        have hres := ih _ _ _ _ _ (consume_line_pos_le src pos hp) hacc h
        exact ⟨hres.1, Nat.le_trans (consume_line_pos_ge src pos) hres.2.1, hres.2.2⟩
    rw [if_neg h4] at h
    rcases hlic : list_item_content opts (trimStartB (firstLineB (src.drop pos))) ordered
      with ⟨b, content, checked⟩
    rw [hlic] at h
    cases b
    · dsimp only at h
      injection h with h
      subst h
      exact ⟨hacc, Nat.le_refl _, hp⟩
    · dsimp only at h
      obtain ⟨inl, hinl, hcont⟩ := prBind_eq_ok h
      have hclen : content.length ≤ src.length := by
        have hlic2 := list_item_content_length opts _ ordered content checked hlic
        have ht := trimStartB_length_le (firstLineB (src.drop pos))
        have hf := firstLineB_length_le (src.drop pos)
        have hd : (List.drop pos src).length ≤ src.length := by
          rw [List.length_drop]; omega
        omega
      have hinlg : ∀ x ∈ inl, GoodNode src.length x :=
        parse_inline_good content 0 inl src.length (by omega) hinl
      have hpar : GoodNode src.length (Node.paragraph inl ⟨0, 0⟩) := by
        refine good_mk _ _ (Nat.le_refl 0) (Nat.zero_le _) rfl ?_
        intro cc hcc
        exact hinlg cc hcc
      have hitem : GoodNode src.length
          (Node.listItem checked false [Node.paragraph inl ⟨0, 0⟩] ⟨0, 0⟩) := by
        refine good_mk _ _ (Nat.le_refl 0) (Nat.zero_le _) rfl ?_
        intro cc hcc
        rw [List.mem_singleton.mp hcc]
        exact hpar
      have hres := ih _ _ _ _ _ (consume_line_pos_le src pos hp)
        (good_append _ _ _ hacc hitem) hcont
      exact ⟨hres.1, Nat.le_trans (consume_line_pos_ge src pos) hres.2.1, hres.2.2⟩

theorem parse_list_good (opts : ParserOptions) (src : Bytes) (start : Nat)
    (o : Option Node) (pos2 : Nat) (hs : start ≤ src.length)
    (h : parse_list opts src start = PR.ok (o, pos2)) :
    (∀ n, o = some n → GoodNode src.length n) ∧ start ≤ pos2 ∧ pos2 ≤ src.length := by
  unfold parse_list at h
  dsimp only at h
  obtain ⟨ip, hip, hok⟩ := prBind_eq_ok h
  have hipg := list_items_loop_good opts src _ _ _ _ _ _ hs
    (fun x hx => absurd hx (List.not_mem_nil x)) hip
  injection hok with hok
  injection hok with ho hp2
  subst ho
  subst hp2
  refine ⟨?_, hipg.2.1, hipg.2.2⟩
  intro n hn
  cases hn
  refine good_mk _ _ ?_ ?_ rfl ?_
  · exact hipg.2.1
  · exact hipg.2.2
  · intro cc hcc
    exact hipg.1 cc hcc

theorem paragraph_loop_bounds (opts : ParserOptions) (src : Bytes) : ∀ (fuel pos ce : Nat),
    ce ≤ pos → pos ≤ src.length →
    ce ≤ (paragraph_loop opts src fuel pos ce).1
    ∧ pos ≤ (paragraph_loop opts src fuel pos ce).2
    ∧ (paragraph_loop opts src fuel pos ce).1 ≤ src.length
    ∧ (paragraph_loop opts src fuel pos ce).2 ≤ src.length := by
  intro fuel
  induction fuel with
  | zero =>
    intro pos ce h1 h2
    rw [paragraph_loop]
    exact ⟨Nat.le_refl _, Nat.le_refl _, Nat.le_trans h1 h2, h2⟩
  | succ f ih =>
    intro pos ce h1 h2
    rw [paragraph_loop]
    dsimp only
    split
    · exact ⟨Nat.le_refl _, Nat.le_refl _, Nat.le_trans h1 h2, h2⟩
    split
    · exact ⟨Nat.le_refl _, Nat.le_refl _, Nat.le_trans h1 h2, h2⟩
    split
    · exact ⟨Nat.le_refl _, Nat.le_refl _, Nat.le_trans h1 h2, h2⟩
    · have hc1 := consume_line_pos_ge src pos
      have hc2 := consume_line_pos_le src pos h2
      have hr := ih (consume_line_pos src pos) (consume_line_pos src pos)
        (Nat.le_refl _) hc2
      exact ⟨Nat.le_trans (Nat.le_trans h1 hc1) hr.1, Nat.le_trans hc1 hr.2.1,
        hr.2.2.1, hr.2.2.2⟩

theorem parse_paragraph_good (opts : ParserOptions) (src : Bytes) (start : Nat)
    (o : Option Node) (pos2 : Nat) (hs : start ≤ src.length)
    (h : parse_paragraph opts src start = PR.ok (o, pos2)) :
    (∀ n, o = some n → GoodNode src.length n) ∧ start ≤ pos2 ∧ pos2 ≤ src.length := by
  unfold parse_paragraph at h
  have hb := paragraph_loop_bounds opts src (src.length + 1) start start
    (Nat.le_refl _) hs
  rcases hq : paragraph_loop opts src (src.length + 1) start start with ⟨ce, pos⟩
  rw [hq] at h hb
  dsimp only at h hb
  split at h
  · injection h with h
    injection h with ho hp2
    subst ho
    subst hp2
    exact ⟨fun n hn => absurd hn (by simp), hb.2.1, hb.2.2.2⟩
  · obtain ⟨children, hch, hok⟩ := prBind_eq_ok h
    injection hok with hok
    injection hok with ho hp2
    subst ho
    subst hp2
    refine ⟨?_, hb.2.1, hb.2.2.2⟩
    intro n hn
    cases hn
    refine good_mk _ _ ?_ ?_ rfl ?_
    · exact hb.1
    · exact hb.2.2.1
    · intro cc hcc
      have hcl : (trimB (sliceL src start ce)).length ≤ ce - start :=
        Nat.le_trans (trimB_length_le _) (sliceL_length_le _ _ _)
    -- start + content length stays within the source
      have hgood : ∀ x ∈ children, GoodNode src.length x := by
        apply parse_inline_good _ _ _ _ _ hch
        have h1 := hb.1
        have h2 := hb.2.2.1
        omega
      exact hgood cc hcc

theorem parse_block_good (opts : ParserOptions) (src : Bytes) (pos0 : Nat)
    (o : Option Node) (pos2 : Nat) (hs : pos0 ≤ src.length)
    (h : parse_block opts src 0 pos0 = PR.ok (o, pos2)) :
    (∀ n, o = some n → GoodNode src.length n) ∧ pos0 ≤ pos2 ∧ pos2 ≤ src.length := by
  unfold parse_block at h
  dsimp only at h
  have hsb1 := skip_blank_lines_ge src pos0
  have hsb2 := skip_blank_lines_le src pos0 hs
  by_cases h1 : src.length ≤ skip_blank_lines src pos0
  · rw [if_pos h1] at h
    injection h with h
    injection h with ho hp2
    subst ho
    subst hp2
    exact ⟨fun n hn => absurd hn (by simp), by omega, by omega⟩
  rw [if_neg h1, if_neg (Nat.not_lt_zero _)] at h
  by_cases h2 : try_parse_heading src (skip_blank_lines src pos0) = true
  · rw [if_pos h2] at h
    have hg := parse_heading_good src _ o pos2 (by omega) h
    exact ⟨hg.1, by omega, hg.2.2⟩
  rw [if_neg h2] at h
  by_cases h3 : try_parse_thematic_break src (skip_blank_lines src pos0) = true
  · rw [if_pos h3] at h
    have hg := parse_thematic_break_good src _ o pos2 (by omega) h
    exact ⟨hg.1, by omega, hg.2.2⟩
  rw [if_neg h3] at h
  by_cases h4 : try_parse_fenced_code src (skip_blank_lines src pos0) = true
  · rw [if_pos h4] at h
    have hg := parse_fenced_code_good src _ o pos2 (by omega) h
    exact ⟨hg.1, by omega, hg.2.2⟩
  rw [if_neg h4] at h
  by_cases h5 : (opts.tables && try_parse_table src (skip_blank_lines src pos0)) = true
  · rw [if_pos h5] at h
    have hg := parse_table_good src _ o pos2 (by omega) h
    exact ⟨hg.1, by omega, hg.2.2⟩
  rw [if_neg h5] at h
  by_cases h6 : try_parse_list src (skip_blank_lines src pos0) = true
  · rw [if_pos h6] at h
    have hg := parse_list_good opts src _ o pos2 (by omega) h
    exact ⟨hg.1, by omega, hg.2.2⟩
  rw [if_neg h6] at h
  have hg := parse_paragraph_good opts src _ o pos2 (by omega) h
  exact ⟨hg.1, by omega, hg.2.2⟩

theorem parse_loop_good (opts : ParserOptions) (src : Bytes) : ∀ (fuel pos : Nat)
    (acc : List Node) (doc : Document),
    pos ≤ src.length →
    (∀ x ∈ acc, GoodNode src.length x) →
    parse_loop opts src fuel 0 pos acc = PR.ok doc →
    (∀ x ∈ doc.children, GoodNode src.length x) ∧ doc.span = ⟨0, src.length⟩ := by
  intro fuel
  induction fuel with
  | zero =>
    intro pos acc doc hp hacc h
    rw [parse_loop] at h
    simp at h
  | succ f ih =>
    intro pos acc doc hp hacc h
    rw [parse_loop] at h
    by_cases h1 : src.length ≤ pos
    · rw [if_pos h1] at h
      injection h with h
      subst h
      exact ⟨hacc, rfl⟩
    rw [if_neg h1] at h
    obtain ⟨np, hnp, hcont⟩ := prBind_eq_ok h
    rcases np with ⟨ond, p2⟩
    have hbg := parse_block_good opts src pos ond p2 hp hnp
    cases ond with
    | some n =>
      exact ih p2 (acc ++ [n]) doc hbg.2.2
        (good_append _ _ _ hacc (hbg.1 n rfl)) hcont
    | none =>
      exact ih p2 acc doc hbg.2.2 hacc hcont

/-- Claim C8: whenever parse returns Ok, the document span and every span
carried by any node reachable from the document children satisfy
start at most stop and stop at most the byte length of the source (the
synthetic zero spans on list items and the spans produced by recursive
inline parsing of extracted content included): the SpanOkNode predicate
recursively bounds the span of every descendant. -/
theorem c8_span_invariants (opts : ParserOptions) (src : Bytes) (fuel : Nat)
    (doc : Document) (h : parse opts src fuel = PR.ok doc) :
    doc.span.start ≤ doc.span.stop ∧ doc.span.stop ≤ src.length
    ∧ ∀ n ∈ doc.children, SpanOkNode src.length n := by
  unfold parse at h
  have hg := parse_loop_good opts src fuel 0 [] doc (Nat.zero_le _)
    (fun x hx => absurd hx (List.not_mem_nil x)) h
  refine ⟨?_, ?_, fun n hn => (hg.1 n hn).1⟩
  · rw [hg.2]
    exact Nat.zero_le _
  · rw [hg.2]

theorem c8_span_invariants_witness :
    parse defaultOptions [97] 2 = PR.ok c8doc
    ∧ (c8doc.span.start ≤ c8doc.span.stop
       ∧ c8doc.span.stop ≤ ([97] : Bytes).length
       ∧ ∀ n ∈ c8doc.children, SpanOkNode ([97] : Bytes).length n) :=
  ⟨rfl, c8_span_invariants defaultOptions [97] 2 c8doc rfl⟩

/-- Claim C10: every node in a document returned by parse is one of the
fourteen constructed variants (Paragraph, Heading, ThematicBreak, CodeBlock,
List, ListItem, Table, TableRow, TableCell, Text, Emphasis, Strong,
InlineCode, Link), recursively through all children; the remaining declared
variants (BlockQuote, Html, Definition, FootnoteDefinition, Image, Delete,
Break, FootnoteReference) are never produced, for any source, options and
fuel. -/
theorem c10_produced_variants (opts : ParserOptions) (src : Bytes) (fuel : Nat)
    (doc : Document) (h : parse opts src fuel = PR.ok doc) :
    ∀ n ∈ doc.children, ProducedNode n := by
  unfold parse at h
  have hg := parse_loop_good opts src fuel 0 [] doc (Nat.zero_le _)
    (fun x hx => absurd hx (List.not_mem_nil x)) h
  exact fun n hn => (hg.1 n hn).2

theorem c10_produced_variants_witness :
    parse defaultOptions [98] 2 = PR.ok c10doc
    ∧ ∀ n ∈ c10doc.children, ProducedNode n :=
  ⟨rfl, c10_produced_variants defaultOptions [98] 2 c10doc rfl⟩

end OxContent
